import Mathlib

/-!
Verification of the shooting-star BFS solver (src/star.c).

A grid is a 16-bit number whose 9 low bits record the 3×3 board
(cell 1 is bit 8, …, cell 9 is bit 0); we embed grids as `Nat`.
A path is the reference-counted singly linked list of moves of the C
code, embedded as `List Int` with the most recent move first and the
empty path (`NULL`) as `[]`.  The breadth-first search of
`shortest_winning_path` keeps a FIFO deque of (path, grid) entries
(pushed at the front, popped at the back) and a 512-slot visited table;
we embed the deque as a `List` popped at the head and pushed at the
tail — the same FIFO order — and the visited table as the bit mask of
the visited grids.  The C loop has no fuel parameter; the embedding
takes fuel and `shortest_winning_path` instantiates it with the fuel
that the termination certificate `bfs_terminates` provides, so the
embedded solver agrees with the unbounded C loop on every
representable grid.
-/

namespace ShootingStar

def empty_grid : Nat := 0b0000000000000000

def winning_grid : Nat := 0b0000000111101111

def error_grid : Nat := 0b1111111111111111

def cell1 : Nat := 0b0000000100000000

def cell2 : Nat := 0b0000000010000000

def cell3 : Nat := 0b0000000001000000

def cell4 : Nat := 0b0000000000100000

def cell5 : Nat := 0b0000000000010000

def cell6 : Nat := 0b0000000000001000

def cell7 : Nat := 0b0000000000000100

def cell8 : Nat := 0b0000000000000010

def cell9 : Nat := 0b0000000000000001

inductive Outcome
  | Won
  | Lost
  | Continue
deriving DecidableEq

/-- Embedding of `is_star`: the C switch on the cell index, returning
whether the corresponding bit of the grid is set; any other cell index
falls through to `false`. -/
def is_star (grid : Nat) (cell : Int) : Bool :=
  if cell = 1 then cell1 &&& grid != 0
  else if cell = 2 then cell2 &&& grid != 0
  else if cell = 3 then cell3 &&& grid != 0
  else if cell = 4 then cell4 &&& grid != 0
  else if cell = 5 then cell5 &&& grid != 0
  else if cell = 6 then cell6 &&& grid != 0
  else if cell = 7 then cell7 &&& grid != 0
  else if cell = 8 then cell8 &&& grid != 0
  else if cell = 9 then cell9 &&& grid != 0
  else false

/-- Embedding of `explode`: a non-star (or out-of-range) cell returns the
grid unchanged, otherwise the cell-specific mask is xor-ed onto the grid. -/
def explode (grid : Nat) (cell : Int) : Nat :=
  if !(is_star grid cell) then grid
  else if cell = 1 then 0b0000000110110000 ^^^ grid
  else if cell = 2 then 0b0000000111000000 ^^^ grid
  else if cell = 3 then 0b0000000011011000 ^^^ grid
  else if cell = 4 then 0b0000000100100100 ^^^ grid
  else if cell = 5 then 0b0000000010111010 ^^^ grid
  else if cell = 6 then 0b0000000001001001 ^^^ grid
  else if cell = 7 then 0b0000000000110110 ^^^ grid
  else if cell = 8 then 0b0000000000000111 ^^^ grid
  else if cell = 9 then 0b0000000000011011 ^^^ grid
  else grid

/-- The single-cell bit tested by the switch of `is_star`, as a function
of the cell index (`0` for an out-of-range index, matching the `false`
default of the switch). -/
def cellMask (cell : Int) : Nat :=
  if cell = 1 then cell1
  else if cell = 2 then cell2
  else if cell = 3 then cell3
  else if cell = 4 then cell4
  else if cell = 5 then cell5
  else if cell = 6 then cell6
  else if cell = 7 then cell7
  else if cell = 8 then cell8
  else if cell = 9 then cell9
  else 0

/-- The toggle mask xor-ed onto the grid by the switch of `explode`, as a
function of the cell index (`0`, a no-op toggle, for an out-of-range
index). -/
def explodeMask (cell : Int) : Nat :=
  if cell = 1 then 0b0000000110110000
  else if cell = 2 then 0b0000000111000000
  else if cell = 3 then 0b0000000011011000
  else if cell = 4 then 0b0000000100100100
  else if cell = 5 then 0b0000000010111010
  else if cell = 6 then 0b0000000001001001
  else if cell = 7 then 0b0000000000110110
  else if cell = 8 then 0b0000000000000111
  else if cell = 9 then 0b0000000000011011
  else 0

/-- Embedding of `outcome`. -/
def outcome (grid : Nat) : Outcome :=
  if grid = empty_grid then Outcome.Lost
  else if grid = winning_grid then Outcome.Won
  else Outcome.Continue

/-- A path value: the C linked list of moves with the most recent move at
the head; `NULL` (the empty path of `new_path`) is `[]`. -/
abbrev Path := List Int

/-- The moves of a path in play order (oldest first), as printed by
`print_path_loop`, which recurses into `rest` before printing `move`. -/
def to_sequence (path : Path) : List Int := path.reverse

/-- Replaying a move sequence (in play order) from a grid by successive
calls to `explode`. -/
def replay (grid : Nat) (ms : List Int) : Nat := ms.foldl explode grid

/-- A frontier entry: the path that reached a grid, and the grid. -/
abbrev Entry := Path × Nat

/-- The cell indices `1..9` scanned by the expansion loop of
`shortest_winning_path`. -/
def moves : List Int := [1, 2, 3, 4, 5, 6, 7, 8, 9]

/-- One expansion step of the solver: for each cell `i` in `1..9` that is a
star, compute `explode grid i` and keep it (with the extended path) when its
visited bit is not set.  This is the body of the `for` loop in
`shortest_winning_path`, in the same order in which the C code pushes the
entries onto the frontier. -/
def expandChildren (grid : Nat) (path : Path) (visited : Nat) : List Entry :=
  moves.filterMap (fun i =>
    if is_star grid i then
      let ng := explode grid i
      if visited.testBit ng then none else some (i :: path, ng)
    else none)

/-- The search loop of `shortest_winning_path`, with an explicit fuel
parameter (the C loop is unbounded; `bfs_terminates` below shows fuel
always suffices).  `none` means the fuel ran out; `some none` is the
C `NULL` result (frontier exhausted); `some (some p)` is a winning path.
The queue is popped at the head and extended at the tail, which is the
FIFO order of the C deque (pushed at the front, popped at the back).
The popped grid is marked visited before it is classified, exactly as in
the C loop.  On a `Won` grid the C code stores the node's path in
`winning_path` but breaks out of the loop only when `winning_path` is not
`NULL`; the empty path is the `NULL` pointer, so a winning entry carrying
the empty path (the initial entry, when the initial grid is already the
winning grid) does not stop the loop, which goes on without expanding
children — with the frontier then empty, the function returns `NULL`. -/
def bfs_loop : Nat → Nat → List Entry → Option (Option Path)
  | 0, _, _ => none
  | _ + 1, _, [] => some none
  | fuel + 1, visited, (path, grid) :: rest =>
    let visited2 := visited ||| (1 <<< grid)
    match outcome grid with
    | Outcome.Won =>
        if path = [] then bfs_loop fuel visited2 rest else some (some path)
    | Outcome.Lost => bfs_loop fuel visited2 rest
    | Outcome.Continue =>
        bfs_loop fuel visited2 (rest ++ expandChildren grid path visited2)

/-- The sequence of grids popped from the frontier and processed by the
search loop, in processing order (same loop as `bfs_loop`, recording the
popped grids). -/
def bfs_processed : Nat → Nat → List Entry → List Nat
  | 0, _, _ => []
  | _ + 1, _, [] => []
  | fuel + 1, visited, (path, grid) :: rest =>
    let visited2 := visited ||| (1 <<< grid)
    grid ::
      match outcome grid with
      | Outcome.Won =>
          if path = [] then bfs_processed fuel visited2 rest else []
      | Outcome.Lost => bfs_processed fuel visited2 rest
      | Outcome.Continue =>
          bfs_processed fuel visited2 (rest ++ expandChildren grid path visited2)

/-- Number of representable grids not yet marked in the visited table. -/
def unvisitedCount (visited : Nat) : Nat :=
  ((Finset.range 512).filter (fun h => ¬ visited.testBit h)).card

/-- Number of frontier entries whose grid is already marked visited. -/
def staleCount (visited : Nat) (queue : List Entry) : Nat :=
  (queue.filter (fun e => visited.testBit e.2)).length

set_option maxHeartbeats 1600000 in
/-- Termination certificate for the search loop: from any state whose
frontier holds only representable grids, some amount of fuel makes
`bfs_loop` return.  Every iteration either visits a fresh grid (the
number of unvisited grids drops) or pops an already visited entry while
pushing only entries that are unvisited at push time (the number of
stale entries drops), so the pair of counts decreases lexicographically. -/
def bfs_loop_terminates (visited : Nat) (queue : List Entry)
    (hq : ∀ e ∈ queue, e.2 < 512) :
    ∃ n, bfs_loop n visited queue ≠ none := by
  have hexpl : ∀ (g : Nat) (c : Int),
      explode g c = g ∨ explode g c = explodeMask c ^^^ g := by
    intro g c
    unfold explode explodeMask
    split_ifs <;> first | exact Or.inl rfl | exact Or.inr rfl
  have hmask : ∀ c : Int, explodeMask c < 2 ^ 9 := by
    intro c
    unfold explodeMask
    split_ifs <;> norm_num
  have explode_lt : ∀ (g : Nat) (c : Int), g < 512 → explode g c < 512 := by
    intro g c hg
    rcases hexpl g c with h | h
    · rw [h]; exact hg
    · rw [h]
      exact Nat.xor_lt_two_pow (hmask c) (by omega)
  have expand_mem : ∀ (g : Nat) (p : Path) (v : Nat) (e : Entry),
      e ∈ expandChildren g p v →
      (∃ i, e.2 = explode g i) ∧ v.testBit e.2 = false := by
    intro g p v e he
    simp only [expandChildren, List.mem_filterMap] at he
    obtain ⟨i, _, hfi⟩ := he
    split_ifs at hfi with h1 h2
    · simp only [Option.some.injEq] at hfi
      subst hfi
      exact ⟨⟨i, rfl⟩, by simpa using h2⟩
  have aux : ∀ (u w v : Nat) (q : List Entry),
      unvisitedCount v = u → staleCount v q = w →
      (∀ e ∈ q, e.2 < 512) →
      ∃ n, bfs_loop n v q ≠ none := by
    intro u
    induction u using Nat.strong_induction_on with
    | _ u IHu =>
      intro w
      induction w using Nat.strong_induction_on with
      | _ w IHw =>
        intro v q hu hw hq
        cases q with
        | nil => exact ⟨1, by simp [bfs_loop]⟩
        | cons head rest =>
          obtain ⟨p, gd⟩ := head
          have hgd : gd < 512 := hq (p, gd) (by simp)
          have hrest : ∀ e ∈ rest, e.2 < 512 :=
            fun e he => hq e (List.mem_cons_of_mem _ he)
          have hveq : v.testBit gd = true → v ||| 1 <<< gd = v := by
            intro hvis
            apply Nat.eq_of_testBit_eq
            intro i
            simp only [Nat.testBit_or, Nat.one_shiftLeft, Nat.testBit_two_pow]
            by_cases hgi : gd = i
            · subst hgi
              simp [hvis]
            · simp [hgi]
          have hufall : v.testBit gd = false →
              unvisitedCount (v ||| 1 <<< gd) < unvisitedCount v := by
            intro hvis
            unfold unvisitedCount
            have hfe : (Finset.range 512).filter
                  (fun h => ¬ (v ||| 1 <<< gd).testBit h) =
                ((Finset.range 512).filter (fun h => ¬ v.testBit h)).erase gd := by
              ext h
              simp only [Finset.mem_filter, Finset.mem_erase, Finset.mem_range,
                Nat.testBit_or, Nat.one_shiftLeft, Nat.testBit_two_pow,
                Bool.or_eq_true, decide_eq_true_eq, not_or]
              constructor
              · rintro ⟨h1, h2, h3⟩
                exact ⟨fun hh => h3 hh.symm, h1, h2⟩
              · rintro ⟨h1, h2, h3⟩
                exact ⟨h2, h3, fun hh => h1 hh.symm⟩
            have hmem : gd ∈ (Finset.range 512).filter (fun h => ¬ v.testBit h) := by
              simp [Finset.mem_filter, Finset.mem_range, hgd, hvis]
            have hpos : 0 < ((Finset.range 512).filter (fun h => ¬ v.testBit h)).card :=
              Finset.card_pos.mpr ⟨gd, hmem⟩
            rw [hfe, Finset.card_erase_of_mem hmem]
            omega
          have hdrop : (∀ n, bfs_loop (n + 1) v ((p, gd) :: rest) =
                bfs_loop n (v ||| 1 <<< gd) rest) →
              ∃ n, bfs_loop n v ((p, gd) :: rest) ≠ none := by
            intro hstep
            by_cases hvis : v.testBit gd
            · have hw2 : staleCount v rest < w := by
                rw [← hw]
                simp [staleCount, List.filter_cons, hvis]
              obtain ⟨n, hn⟩ := IHw (staleCount v rest) hw2 v rest hu rfl hrest
              exact ⟨n + 1, by rw [hstep, hveq hvis]; exact hn⟩
            · have hu2 : unvisitedCount (v ||| 1 <<< gd) < u :=
                hu ▸ hufall (by simpa using hvis)
              obtain ⟨n, hn⟩ := IHu (unvisitedCount (v ||| 1 <<< gd)) hu2
                (staleCount (v ||| 1 <<< gd) rest) (v ||| 1 <<< gd) rest rfl rfl hrest
              exact ⟨n + 1, by rw [hstep]; exact hn⟩
          cases houtcome : outcome gd with
          | Won =>
            by_cases hp : p = []
            · subst hp
              refine hdrop ?_
              intro n
              simp [bfs_loop, houtcome]
            · exact ⟨1, by simp [bfs_loop, houtcome, hp]⟩
          | Lost =>
            refine hdrop ?_
            intro n
            simp [bfs_loop, houtcome]
          | Continue =>
            have hstep : ∀ n, bfs_loop (n + 1) v ((p, gd) :: rest) =
                bfs_loop n (v ||| 1 <<< gd)
                  (rest ++ expandChildren gd p (v ||| 1 <<< gd)) := by
              intro n
              simp [bfs_loop, houtcome]
            have hq2 : ∀ e ∈ rest ++ expandChildren gd p (v ||| 1 <<< gd), e.2 < 512 := by
              intro e he
              rcases List.mem_append.mp he with h | h
              · exact hrest e h
              · obtain ⟨⟨i, hi⟩, _⟩ := expand_mem _ _ _ _ h
                rw [hi]
                exact explode_lt gd i hgd
            by_cases hvis : v.testBit gd
            · have hch : ∀ e ∈ expandChildren gd p v, v.testBit e.2 = false :=
                fun e he => (expand_mem _ _ _ _ he).2
              have hw2 : staleCount v (rest ++ expandChildren gd p v) < w := by
                rw [← hw]
                unfold staleCount
                rw [List.filter_append, List.length_append, List.filter_cons]
                simp only [hvis, if_true]
                have h0 : (expandChildren gd p v).filter (fun e => v.testBit e.2) = [] :=
                  List.filter_eq_nil_iff.mpr (fun e he => by simp [hch e he])
                rw [h0]
                simp
              obtain ⟨n, hn⟩ := IHw (staleCount v (rest ++ expandChildren gd p v)) hw2
                v (rest ++ expandChildren gd p v) hu rfl
                (by rw [hveq hvis] at hq2; exact hq2)
              refine ⟨n + 1, ?_⟩
              rw [hstep, hveq hvis]
              exact hn
            · have hu2 : unvisitedCount (v ||| 1 <<< gd) < u :=
                hu ▸ hufall (by simpa using hvis)
              obtain ⟨n, hn⟩ := IHu (unvisitedCount (v ||| 1 <<< gd)) hu2
                (staleCount (v ||| 1 <<< gd)
                  (rest ++ expandChildren gd p (v ||| 1 <<< gd)))
                (v ||| 1 <<< gd) (rest ++ expandChildren gd p (v ||| 1 <<< gd))
                rfl rfl hq2
              exact ⟨n + 1, by rw [hstep]; exact hn⟩
  exact aux (unvisitedCount visited) (staleCount visited queue) visited queue rfl rfl hq

/-- Termination of the search from a representable initial grid. -/
def bfs_terminates (g : Nat) (h : g < 512) :
    ∃ n, bfs_loop n 0 [([], g)] ≠ none :=
  bfs_loop_terminates 0 [([], g)] (by
    intro e he
    simp only [List.mem_singleton] at he
    rw [he]
    exact h)

/-- Embedding of `shortest_winning_path`: run the search loop with enough
fuel (given by the termination certificate, so the result is the one the
unbounded C loop computes).  Grids outside the 512 representable values
are out of contract for the C function (its 512-slot visited table would
be indexed out of bounds); the embedding returns `none` for them. -/
def shortest_winning_path (g : Nat) : Option Path :=
  if h : g < 512 then (bfs_loop (Nat.find (bfs_terminates g h)) 0 [([], g)]).getD none
  else none

/-- The winning pattern as the specification text describes it (stars in
cells 2, 3, 5, 6, 7 and 8 only); to be compared with the `winning_grid`
constant of the code. -/
def spec_winning_grid : Nat := cell2 ||| cell3 ||| cell5 ||| cell6 ||| cell7 ||| cell8

/-- Row of a cell index in the 3×3 row-major layout, per the spec. -/
def spec_cell_row (c : Int) : Int := (c - 1) / 3

/-- Column of a cell index in the 3×3 row-major layout, per the spec. -/
def spec_cell_col (c : Int) : Int := (c - 1) % 3

/-- Orthogonal-or-diagonal in-grid adjacency of two cell indices of the
3×3 layout, as the specification describes the toggle neighborhoods. -/
def spec_adjacent (c i : Int) : Bool :=
  (c != i) && decide ((spec_cell_row c - spec_cell_row i).natAbs ≤ 1)
    && decide ((spec_cell_col c - spec_cell_col i).natAbs ≤ 1)

/-- The specification claim about `explode` (claim C3): exploding a star
toggles exactly the chosen cell together with its in-grid
orthogonal/diagonal neighbors, and leaves every other cell alone. -/
def spec_toggle_claim (g : Nat) (c : Int) : Prop :=
  ∀ i ∈ moves,
    is_star (explode g c) i =
      (if i = c ∨ spec_adjacent c i then !(is_star g i) else is_star g i)

/-- The cells actually toggled by `explode` for each cell index, read off
the xor masks of the code (cell 1 is bit 8, …, cell 9 is bit 0). -/
def toggles (c : Int) : List Int :=
  if c = 1 then [1, 2, 4, 5]
  else if c = 2 then [1, 2, 3]
  else if c = 3 then [2, 3, 5, 6]
  else if c = 4 then [1, 4, 7]
  else if c = 5 then [2, 4, 5, 6, 8]
  else if c = 6 then [3, 6, 9]
  else if c = 7 then [4, 5, 7, 8]
  else if c = 8 then [7, 8, 9]
  else if c = 9 then [5, 6, 8, 9]
  else []

/-- Soundness data of one frontier entry: replaying its path (in play
order) from the initial grid reaches its grid, and no replay state before
the end of the path is the winning grid. -/
def EntrySound (g0 : Nat) (e : Entry) : Prop :=
  replay g0 e.1.reverse = e.2 ∧
    ∀ k, k < e.1.length → replay g0 (e.1.reverse.take k) ≠ winning_grid

/-- Level structure of the FIFO frontier: path lengths are nondecreasing
in pop order and any two entries differ by at most one move. -/
def QueueOrdered (q : List Entry) : Prop :=
  List.Sorted (· ≤ ·) (q.map (fun e => e.1.length)) ∧
    ∀ e ∈ q, ∀ f ∈ q, e.1.length ≤ f.1.length + 1

/-- Shortest-path witness invariant: some prefix of the fixed shortest
winning move list `ms` has a frontier entry whose path is no longer than
the prefix, and every strictly later replay state along `ms` is still
unvisited. -/
def WinWitness (g0 : Nat) (d : Nat) (ms : List Int) (v : Nat)
    (q : List Entry) : Prop :=
  ∃ i, i ≤ d ∧ ∃ p, (p, replay g0 (ms.take i)) ∈ q ∧ p.length ≤ i ∧
    ∀ j, i < j → j ≤ d → v.testBit (replay g0 (ms.take j)) = false

namespace PathRc

/-- A heap node of the `Path` linked list of the C code: a reference
count, a move, and the address of the `rest` node (`none` for `NULL`). -/
structure PathNode where
  references : Int
  move : Int
  rest : Option Nat

/-- The heap of path nodes: a partial map from addresses to nodes
(`none` = unallocated or freed), and the next fresh address. -/
structure Heap where
  mem : Nat → Option PathNode
  next : Nat

/-- The empty heap. -/
def emptyHeap : Heap := ⟨fun _ => none, 0⟩

/-- Replace (or free, with `none`) the node at one address. -/
def updateMem (h : Heap) (a : Nat) (nd : Option PathNode) : Heap :=
  ⟨fun b => if b = a then nd else h.mem b, h.next⟩

/-- Embedding of `inc_reference_to_path`: a no-op on `NULL`, otherwise
increments the reference count of the node.  (Calling it on a freed
address is undefined behaviour in C; the embedding leaves the heap
unchanged, and the heap invariants rule the case out.) -/
def inc_reference_to_path (h : Heap) (p : Option Nat) : Heap :=
  match p with
  | none => h
  | some a =>
    match h.mem a with
    | none => h
    | some nd => updateMem h a (some { nd with references := nd.references + 1 })

/-- Embedding of the body of `drop_reference_to_path`, with fuel for the
recursion along the `rest` chain: decrement the count; when it reaches
zero, free the node and drop a reference to its `rest`.  The C code frees
the node after the recursive call; since the `rest` chain of a well-formed
heap never revisits the node being freed, freeing it first (as here)
produces the same heap.  In a well-formed heap the chain descends to
strictly smaller addresses, so fuel `a + 1` always suffices. -/
def dropN : Nat → Heap → Option Nat → Heap
  | _, h, none => h
  | 0, h, some _ => h
  | fuel + 1, h, some a =>
    match h.mem a with
    | none => h
    | some nd =>
      if nd.references - 1 = 0 then
        dropN fuel (updateMem h a none) nd.rest
      else
        updateMem h a (some { nd with references := nd.references - 1 })

/-- Embedding of `drop_reference_to_path`. -/
def drop_reference_to_path (h : Heap) (p : Option Nat) : Heap :=
  match p with
  | none => h
  | some a => dropN (a + 1) h (some a)

/-- Allocation step of `add_move_to_path`: a fresh node at the next free
address, with one reference, holding the move, sharing `p` as its rest. -/
def allocNode (h : Heap) (p : Option Nat) (mv : Int) : Heap :=
  ⟨fun b => if b = h.next then some ⟨1, mv, p⟩ else h.mem b, h.next + 1⟩

/-- Embedding of `add_move_to_path`: allocate a fresh node with one
reference, holding the move and sharing `path` as its rest, and increment
the reference count of the rest.  Returns the new heap and the address of
the new node.  (The C `malloc` failure branch is out of scope.) -/
def add_move_to_path (h : Heap) (p : Option Nat) (mv : Int) : Heap × Nat :=
  (inc_reference_to_path (allocNode h p mv) p, h.next)

/-- A client operation on paths: extend a held (or empty) path by a move,
retain a held path, or release a held path. -/
inductive PathOp where
  | extend : Option Nat → Int → PathOp
  | retain : Nat → PathOp
  | release : Nat → PathOp

/-- Client-visible state: the heap together with the multiset of path
handles the client currently owns (each `extend` and `retain` grants one
handle; each `release` spends one). -/
structure ClientState where
  heap : Heap
  handles : Multiset Nat

/-- The initial state: empty heap, no handles. -/
def initState : ClientState := ⟨emptyHeap, 0⟩

/-- Run one client operation; `none` when the operation is invalid (uses
a handle the client does not hold). -/
def runOp (s : ClientState) (op : PathOp) : Option ClientState :=
  match op with
  | .extend none mv =>
    some ⟨(add_move_to_path s.heap none mv).1,
      (add_move_to_path s.heap none mv).2 ::ₘ s.handles⟩
  | .extend (some a) mv =>
    if a ∈ s.handles then
      some ⟨(add_move_to_path s.heap (some a) mv).1,
        (add_move_to_path s.heap (some a) mv).2 ::ₘ s.handles⟩
    else none
  | .retain a =>
    if a ∈ s.handles then
      some ⟨inc_reference_to_path s.heap (some a), a ::ₘ s.handles⟩
    else none
  | .release a =>
    if a ∈ s.handles then
      some ⟨drop_reference_to_path s.heap (some a), s.handles.erase a⟩
    else none

/-- Run a list of client operations from a state. -/
def runOpsFrom (s : ClientState) : List PathOp → Option ClientState
  | [] => some s
  | op :: ops =>
    match runOp s op with
    | none => none
    | some s2 => runOpsFrom s2 ops

/-- Run a list of client operations from the initial state. -/
def runOps (ops : List PathOp) : Option ClientState := runOpsFrom initState ops

/-- The rest pointer stored at an address, if the address is live. -/
def restOf (h : Heap) (b : Nat) : Option Nat :=
  match h.mem b with
  | none => none
  | some nd => nd.rest

/-- Number of live nodes whose rest pointer is the given address. -/
def inDeg (h : Heap) (a : Nat) : Nat :=
  ((Finset.range h.next).filter (fun b => restOf h b = some a)).card

/-- Well-formedness of a client state: live addresses are below `next`,
rest pointers descend to live nodes at smaller addresses, handles point
to live nodes, and each reference count is exactly the number of handles
plus the number of live nodes sharing it — and hence positive. -/
structure HeapInv (s : ClientState) : Prop where
  bounded : ∀ a, s.heap.mem a ≠ none → a < s.heap.next
  chain : ∀ a nd, s.heap.mem a = some nd → ∀ b, nd.rest = some b →
    b < a ∧ s.heap.mem b ≠ none
  handlesLive : ∀ p ∈ s.handles, s.heap.mem p ≠ none
  counts : ∀ a nd, s.heap.mem a = some nd →
    nd.references = (s.handles.count a : Int) + (inDeg s.heap a : Int)
  pos : ∀ a nd, s.heap.mem a = some nd → 1 ≤ nd.references

/-- Well-formedness during a cascade: the same as `HeapInv` except that
one extra reference to the node `r` (the one being dropped) is still
counted in its reference count. -/
structure DropInv (s : ClientState) (r : Option Nat) : Prop where
  bounded : ∀ a, s.heap.mem a ≠ none → a < s.heap.next
  chain : ∀ a nd, s.heap.mem a = some nd → ∀ b, nd.rest = some b →
    b < a ∧ s.heap.mem b ≠ none
  handlesLive : ∀ p ∈ s.handles, s.heap.mem p ≠ none
  counts : ∀ a nd, s.heap.mem a = some nd →
    nd.references = (s.handles.count a : Int) + (inDeg s.heap a : Int) +
      (if r = some a then 1 else 0)
  pos : ∀ a nd, s.heap.mem a = some nd → 1 ≤ nd.references
  pendingLive : ∀ a, r = some a → s.heap.mem a ≠ none

/-- The acyclicity the C path structure enjoys by construction: every
rest pointer goes to a strictly smaller (older) address. -/
def ChainDec (h : Heap) : Prop :=
  ∀ x nx, h.mem x = some nx → ∀ y, nx.rest = some y → y < x

/-- A one-node example heap (a single path node with one reference),
used to witness the reference-counting theorems on concrete data. -/
def exampleHeap : Heap :=
  ⟨fun b => if b = 0 then some ⟨1, 7, none⟩ else none, 1⟩

/-- An example balanced operation sequence: extend the empty path once,
then release the handle. -/
def exampleOps : List PathOp := [PathOp.extend none 7, PathOp.release 0]

end PathRc

set_option maxHeartbeats 1600000 in
theorem is_star_eq (g : Nat) (c : Int) : is_star g c = (cellMask c &&& g != 0) := by
  unfold is_star cellMask
  split_ifs <;> first | rfl | simp

theorem and_single_ne (b x : Nat) : ((2 ^ b &&& x) != 0) = x.testBit b := by
  rw [Nat.two_pow_and]
  cases h : x.testBit b
  · simp [h]
  · simp [h, Nat.pos_iff_ne_zero]

set_option maxHeartbeats 1600000 in
theorem is_star_oob (g : Nat) (c : Int) (h : c < 1 ∨ 9 < c) : is_star g c = false := by
  unfold is_star
  split_ifs <;> first | rfl | (exfalso; omega)

theorem is_star_range (g : Nat) (c : Int) (h : is_star g c = true) : 1 ≤ c ∧ c ≤ 9 := by
  by_contra hc
  have hor : c < 1 ∨ 9 < c := by omega
  rw [is_star_oob g c hor] at h
  exact Bool.noConfusion h

theorem explode_not_star (g : Nat) (c : Int) (h : is_star g c = false) :
    explode g c = g := by
  simp [explode, h]

set_option maxHeartbeats 1600000 in
theorem explode_star (g : Nat) (c : Int) (h : is_star g c = true) :
    explode g c = explodeMask c ^^^ g := by
  have hr := is_star_range g c h
  unfold explode explodeMask
  simp only [h, Bool.not_true, Bool.false_eq_true, if_false]
  split_ifs <;> first | rfl | (exfalso; omega)

theorem explode_cases (g : Nat) (c : Int) :
    explode g c = g ∨ explode g c = explodeMask c ^^^ g := by
  cases hs : is_star g c
  · exact Or.inl (explode_not_star g c hs)
  · exact Or.inr (explode_star g c hs)

set_option maxHeartbeats 800000 in
theorem explodeMask_lt (c : Int) : explodeMask c < 2 ^ 9 := by
  unfold explodeMask
  split_ifs <;> norm_num

theorem explode_lt (g : Nat) (c : Int) (h : g < 512) : explode g c < 512 := by
  rcases explode_cases g c with he | he
  · rw [he]; exact h
  · rw [he]
    exact Nat.xor_lt_two_pow (explodeMask_lt c) (by omega)

theorem is_star_testBit (g : Nat) (c : Int) (h1 : 1 ≤ c) (h2 : c ≤ 9) :
    is_star g c = g.testBit (9 - c).toNat := by
  have hc : c = 1 ∨ c = 2 ∨ c = 3 ∨ c = 4 ∨ c = 5 ∨ c = 6 ∨ c = 7 ∨ c = 8 ∨ c = 9 := by
    omega
  rcases hc with rfl | rfl | rfl | rfl | rfl | rfl | rfl | rfl | rfl <;>
      rw [is_star_eq] <;>
    first
      | exact and_single_ne 8 g
      | exact and_single_ne 7 g
      | exact and_single_ne 6 g
      | exact and_single_ne 5 g
      | exact and_single_ne 4 g
      | exact and_single_ne 3 g
      | exact and_single_ne 2 g
      | exact and_single_ne 1 g
      | exact and_single_ne 0 g

theorem explodeMask_self_testBit (c : Int) (h1 : 1 ≤ c) (h2 : c ≤ 9) :
    (explodeMask c).testBit (9 - c).toNat = true := by
  have hc : c = 1 ∨ c = 2 ∨ c = 3 ∨ c = 4 ∨ c = 5 ∨ c = 6 ∨ c = 7 ∨ c = 8 ∨ c = 9 := by
    omega
  rcases hc with rfl | rfl | rfl | rfl | rfl | rfl | rfl | rfl | rfl <;> decide

theorem is_star_explode_self (g : Nat) (c : Int) (h : is_star g c = true) :
    is_star (explode g c) c = false := by
  obtain ⟨h1, h2⟩ := is_star_range g c h
  rw [explode_star g c h]
  rw [is_star_testBit _ _ h1 h2] at h ⊢
  rw [Nat.testBit_xor, explodeMask_self_testBit c h1 h2, h]
  rfl

theorem is_star_zero (c : Int) : is_star 0 c = false := by
  rw [is_star_eq]
  simp

theorem explode_zero (c : Int) : explode 0 c = 0 :=
  explode_not_star 0 c (is_star_zero c)

theorem outcome_won_iff (g : Nat) : outcome g = Outcome.Won ↔ g = winning_grid := by
  unfold outcome
  split_ifs with h1 h2
  · constructor
    · intro hh
      exact absurd hh (by decide)
    · intro hh
      rw [h1] at hh
      exact absurd hh (by decide)
  · exact ⟨fun _ => h2, fun _ => rfl⟩
  · constructor
    · intro hh
      exact absurd hh (by decide)
    · intro hh
      exact absurd hh h2

theorem outcome_continue_iff (g : Nat) :
    outcome g = Outcome.Continue ↔ g ≠ empty_grid ∧ g ≠ winning_grid := by
  unfold outcome
  split_ifs with h1 h2
  · constructor
    · intro hh
      exact absurd hh (by decide)
    · intro hh
      exact absurd h1 hh.1
  · constructor
    · intro hh
      exact absurd hh (by decide)
    · intro hh
      exact absurd h2 hh.2
  · exact ⟨fun _ => ⟨h1, h2⟩, fun _ => rfl⟩

theorem outcome_lost_iff (g : Nat) : outcome g = Outcome.Lost ↔ g = empty_grid := by
  unfold outcome
  split_ifs with h1 h2
  · exact ⟨fun _ => h1, fun _ => rfl⟩
  · constructor
    · intro hh
      exact absurd hh (by decide)
    · intro hh
      exact absurd hh h1
  · constructor
    · intro hh
      exact absurd hh (by decide)
    · intro hh
      exact absurd hh h1

theorem replay_nil (g : Nat) : replay g [] = g := rfl

theorem replay_cons (g : Nat) (m : Int) (ms : List Int) :
    replay g (m :: ms) = replay (explode g m) ms := rfl

theorem replay_append (g : Nat) (ms ns : List Int) :
    replay g (ms ++ ns) = replay (replay g ms) ns := by
  simp [replay, List.foldl_append]

theorem replay_zero (ms : List Int) : replay 0 ms = 0 := by
  induction ms with
  | nil => rfl
  | cons m ms ih => rw [replay_cons, explode_zero]; exact ih

theorem mem_moves_iff (c : Int) : c ∈ moves ↔ 1 ≤ c ∧ c ≤ 9 := by
  constructor
  · intro h
    simp only [moves, List.mem_cons, List.not_mem_nil, or_false] at h
    rcases h with rfl | rfl | rfl | rfl | rfl | rfl | rfl | rfl | rfl <;> omega
  · intro h
    have hc : c = 1 ∨ c = 2 ∨ c = 3 ∨ c = 4 ∨ c = 5 ∨ c = 6 ∨ c = 7 ∨ c = 8 ∨ c = 9 := by
      omega
    rcases hc with rfl | rfl | rfl | rfl | rfl | rfl | rfl | rfl | rfl <;> simp [moves]

theorem mem_expandChildren {g : Nat} {p : Path} {v : Nat} {e : Entry} :
    e ∈ expandChildren g p v ↔ ∃ c ∈ moves, is_star g c = true ∧
      v.testBit (explode g c) = false ∧ e = (c :: p, explode g c) := by
  simp only [expandChildren, List.mem_filterMap]
  constructor
  · rintro ⟨c, hc, hf⟩
    split_ifs at hf with h1 h2 <;>
      first
        | exact absurd hf (fun hh => Option.noConfusion hh)
        | · simp only [Option.some.injEq] at hf
            exact ⟨c, hc, h1, by simpa using h2, hf.symm⟩
  · rintro ⟨c, hc, h1, h2, rfl⟩
    exact ⟨c, hc, by simp [h1, h2]⟩

theorem xor_flip (m g b : Nat) :
    (m ^^^ g).testBit b = (if m.testBit b then !(g.testBit b) else g.testBit b) := by
  rw [Nat.testBit_xor]
  cases h : m.testBit b <;> simp [h]

theorem explodeMask_testBit_iff :
    ∀ c ∈ moves, ∀ i ∈ moves,
      ((explodeMask c).testBit (9 - i).toNat = true ↔ i ∈ toggles c) := by
  decide

theorem bfs_loop_succ : ∀ (n v : Nat) (q : List Entry) (r : Option Path),
    bfs_loop n v q = some r → bfs_loop (n + 1) v q = some r := by
  intro n
  induction n with
  | zero =>
    intro v q r h
    exact absurd h (by simp [bfs_loop])
  | succ n IH =>
    intro v q r h
    cases q with
    | nil => simpa [bfs_loop] using h
    | cons head rest =>
      obtain ⟨p, gd⟩ := head
      cases houtcome : outcome gd with
      | Won =>
        simp only [bfs_loop, houtcome] at h ⊢
        split_ifs at h ⊢ with hp
        · exact IH _ _ _ h
        · exact h
      | Lost =>
        simp only [bfs_loop, houtcome] at h ⊢
        exact IH _ _ _ h
      | Continue =>
        simp only [bfs_loop, houtcome] at h ⊢
        exact IH _ _ _ h

theorem bfs_loop_add (k : Nat) : ∀ (n v : Nat) (q : List Entry) (r : Option Path),
    bfs_loop n v q = some r → bfs_loop (n + k) v q = some r := by
  induction k with
  | zero => intro n v q r h; exact h
  | succ k IH =>
    intro n v q r h
    exact bfs_loop_succ _ _ _ _ (IH _ _ _ _ h)

theorem swp_eq_of_loop (g : Nat) (hg : g < 512) (n : Nat) (r : Option Path)
    (hr : bfs_loop n 0 [([], g)] = some r) : shortest_winning_path g = r := by
  unfold shortest_winning_path
  rw [dif_pos hg]
  have hne := Nat.find_spec (bfs_terminates g hg)
  have hle : Nat.find (bfs_terminates g hg) ≤ n := Nat.find_min' _ (by rw [hr]; simp)
  cases hl : bfs_loop (Nat.find (bfs_terminates g hg)) 0 [([], g)] with
  | none => exact absurd hl hne
  | some r0 =>
    have hst := bfs_loop_add (n - Nat.find (bfs_terminates g hg)) _ _ _ _ hl
    rw [Nat.add_sub_cancel' hle, hr] at hst
    simp only [Option.some.injEq] at hst
    simp [hst]

theorem loop_of_swp (g : Nat) (hg : g < 512) (p : Path)
    (hp : shortest_winning_path g = some p) :
    ∃ n, bfs_loop n 0 [([], g)] = some (some p) := by
  unfold shortest_winning_path at hp
  rw [dif_pos hg] at hp
  have hne := Nat.find_spec (bfs_terminates g hg)
  cases hl : bfs_loop (Nat.find (bfs_terminates g hg)) 0 [([], g)] with
  | none => exact absurd hl hne
  | some r0 =>
    rw [hl] at hp
    simp only [Option.getD_some] at hp
    exact ⟨_, by rw [hl, hp]⟩

/-- Claim C2 is false of the code: on an initial grid that is already the
winning grid, `shortest_winning_path` returns `NULL` — the no-solution
result — not a path.  The loop stores the winning node's path in
`winning_path`, but that path is the empty path, which is the `NULL`
pointer, so the `winning_path != NULL` break check never fires; the
frontier (holding only the initial entry, whose children are not
expanded) is then exhausted and `NULL` is returned. -/
theorem c2_winning_initial_no_path :
    shortest_winning_path winning_grid = none :=
  swp_eq_of_loop winning_grid (by norm_num [winning_grid]) 2 none (by decide)

/-- Claim C4, counterexample: the winning-grid constant of the code is not
the pattern with exactly cells 2, 3, 5, 6, 7 and 8 set that the
specification describes. -/
theorem c4_counterexample : winning_grid ≠ spec_winning_grid := by decide

/-- Claim C4, amended: the winning grid has stars in exactly the cells
1, 2, 3, 4, 6, 7, 8 and 9, and a hole in the center cell 5. -/
theorem c4_winning_grid_cells :
    winning_grid =
      cell1 ||| cell2 ||| cell3 ||| cell4 ||| cell6 ||| cell7 ||| cell8 ||| cell9 ∧
    is_star winning_grid 1 = true ∧ is_star winning_grid 2 = true ∧
    is_star winning_grid 3 = true ∧ is_star winning_grid 4 = true ∧
    is_star winning_grid 5 = false ∧ is_star winning_grid 6 = true ∧
    is_star winning_grid 7 = true ∧ is_star winning_grid 8 = true ∧
    is_star winning_grid 9 = true := by
  decide

/-- Claim C3, counterexample: exploding the star in edge cell 2 does not
toggle the chosen cell together with all of its orthogonal/diagonal
neighbors — the diagonal and below neighbors 4, 5, 6 of cell 2 are left
untouched (the mask only toggles the top row), so the claimed toggle
pattern (edge cells toggling their five neighbors) is wrong. -/
theorem c3_counterexample : is_star 128 2 = true ∧ ¬ spec_toggle_claim 128 2 := by
  unfold spec_toggle_claim
  decide

/-- Claim C3, amended: exploding a star toggles exactly the cells of the
code's per-cell table: a corner cell toggles 4 positions (itself and its
3 orthogonal/diagonal neighbors), an edge cell toggles the 3 positions
of the full row (top/bottom edge) or column (side edge) through it, and
the center toggles the 5-position cross. -/
theorem c3_toggle_table :
    (∀ (g : Nat) (c : Int), c ∈ moves → is_star g c = true → ∀ i ∈ moves,
      is_star (explode g c) i =
        (if i ∈ toggles c then !(is_star g i) else is_star g i)) ∧
    (toggles 1).length = 4 ∧ (toggles 3).length = 4 ∧ (toggles 7).length = 4 ∧
    (toggles 9).length = 4 ∧ (toggles 2).length = 3 ∧ (toggles 4).length = 3 ∧
    (toggles 6).length = 3 ∧ (toggles 8).length = 3 ∧ (toggles 5).length = 5 := by
  refine ⟨?_, by decide⟩
  intro g c hc hstar i hi
  obtain ⟨hi1, hi2⟩ := (mem_moves_iff i).mp hi
  rw [explode_star g c hstar, is_star_testBit _ i hi1 hi2,
    is_star_testBit g i hi1 hi2, xor_flip]
  exact if_congr (explodeMask_testBit_iff c hc i hi) rfl rfl

/-- Witness for the amended claim C3 at a concrete instance: exploding
cell 2 of the grid that has only cell 2 set leaves cell 5 alone, since
cell 5 is not in the toggle set of cell 2. -/
theorem c3_witness :
    is_star (explode 128 2) 5 =
      (if (5 : Int) ∈ toggles 2 then !(is_star 128 5) else is_star 128 5) :=
  c3_toggle_table.1 128 2 (by decide) (by decide) 5 (by decide)

/-- Claim C5, counterexample: running the search from initial grid 113
(cells 3, 4, 5, 9) pops and processes grid 397 twice — marking a grid
visited at dequeue time does not prevent a second copy that was enqueued
earlier from being dequeued and processed again. -/
theorem c5_counterexample :
    bfs_processed 20 0 [([], 113)] =
      [113, 169, 341, 203, 106, 361, 397, 224, 178, 229, 397, 495] ∧
    ¬ (bfs_processed 20 0 [([], 113)]).Nodup := by
  decide

/-- Claim C5, amended: the frontier never receives an entry whose grid is
already marked visited — every enqueued grid is unvisited at enqueue time
(even after marking the currently processed grid), and visited marks are
never cleared; a grid may however be dequeued and processed more than
once, when several copies were enqueued before its first dequeue. -/
theorem c5_visited_never_reenqueued :
    (∀ (g : Nat) (p : Path) (v : Nat) (e : Entry),
      e ∈ expandChildren g p v → v.testBit e.2 = false) ∧
    ∀ (v g i : Nat), v.testBit i = true → (v ||| 1 <<< g).testBit i = true := by
  constructor
  · intro g p v e he
    obtain ⟨c, _, _, h2, rfl⟩ := mem_expandChildren.mp he
    exact h2
  · intro v g i h
    simp [Nat.testBit_or, h]

/-- Witness for the amended claim C5: the child entry generated by
exploding cell 1 of grid 256 is unvisited in the table that has only
grid 256 marked, and marking preserves existing visited bits. -/
theorem c5_witness :
    (1 <<< 256 : Nat).testBit 176 = false ∧
    ((1 <<< 3 : Nat) ||| 1 <<< 5).testBit 3 = true :=
  ⟨c5_visited_never_reenqueued.1 256 [] (1 <<< 256) ([1], 176) (by decide),
   c5_visited_never_reenqueued.2 (1 <<< 3) 5 3 (by decide)⟩

/-- Claim C6: from every representable initial grid the search loop
terminates — some finite fuel makes it return, and the value of
`shortest_winning_path` is the result of that finite run. -/
theorem c6_search_terminates : ∀ g : Nat, g < 512 →
    ∃ (n : Nat) (r : Option Path), bfs_loop n 0 [([], g)] = some r ∧
      shortest_winning_path g = r := by
  intro g h
  have hne := Nat.find_spec (bfs_terminates g h)
  cases hl : bfs_loop (Nat.find (bfs_terminates g h)) 0 [([], g)] with
  | none => exact absurd hl hne
  | some r =>
    refine ⟨_, r, hl, ?_⟩
    unfold shortest_winning_path
    rw [dif_pos h, hl]
    rfl

/-- Witness for claim C6 at the empty grid. -/
theorem c6_witness :
    ∃ (n : Nat) (r : Option Path), bfs_loop n 0 [([], 0)] = some r ∧
      shortest_winning_path 0 = r :=
  c6_search_terminates 0 (by norm_num)

/-- Claim C8: the 512 representable grids are closed under `explode` for
cells 1–9: the result is again below 512 (so indexing the 512-slot
visited table stays in bounds) and is never the error sentinel. -/
theorem c8_state_space_closed : ∀ g : Nat, g < 512 → ∀ c : Int,
    1 ≤ c → c ≤ 9 → explode g c < 512 ∧ explode g c ≠ error_grid := by
  intro g hg c _ _
  have hlt := explode_lt g c hg
  refine ⟨hlt, fun hcontra => ?_⟩
  rw [hcontra] at hlt
  norm_num [error_grid] at hlt

/-- Witness for claim C8 at grid 256 and cell 1. -/
theorem c8_witness : explode 256 1 < 512 ∧ explode 256 1 ≠ error_grid :=
  c8_state_space_closed 256 (by norm_num) 1 (by norm_num) (by norm_num)

/-- Claim C9: `is_star` returns `false` on every out-of-range cell, and
`explode` returns the grid unchanged on every non-star cell (out-of-range
cells included); both are total. -/
theorem c9_total_safe_defaults : ∀ (g : Nat) (c : Int),
    ((c < 1 ∨ 9 < c) → is_star g c = false) ∧
    (is_star g c = false → explode g c = g) :=
  fun g c => ⟨fun h => is_star_oob g c h, fun h => explode_not_star g c h⟩

/-- Witness for claim C9 at grid 7 and the out-of-range cell 0. -/
theorem c9_witness : is_star 7 0 = false ∧ explode 7 0 = 7 :=
  ⟨(c9_total_safe_defaults 7 0).1 (Or.inl (by norm_num)),
   (c9_total_safe_defaults 7 0).2
     ((c9_total_safe_defaults 7 0).1 (Or.inl (by norm_num)))⟩

theorem sorted_replicate (n : Nat) (a : Nat) :
    List.Sorted (· ≤ ·) (List.replicate n a) := by
  induction n with
  | zero => simp
  | succ n ih =>
    rw [List.replicate_succ, List.sorted_cons]
    exact ⟨fun b hb => by rw [List.eq_of_mem_replicate hb], ih⟩

theorem expandChildren_length {g : Nat} {p : Path} {v : Nat} :
    ∀ e ∈ expandChildren g p v, e.1.length = p.length + 1 := by
  intro e he
  obtain ⟨c, _, _, _, rfl⟩ := mem_expandChildren.mp he
  simp

theorem queueOrdered_head_le {pc : Path} {gc : Nat} {rest : List Entry}
    (hord : QueueOrdered ((pc, gc) :: rest)) :
    ∀ e ∈ (pc, gc) :: rest, pc.length ≤ e.1.length := by
  intro e he
  rcases List.mem_cons.mp he with rfl | hmem
  · exact Nat.le_refl _
  · have hs := hord.1
    rw [List.map_cons, List.sorted_cons] at hs
    exact hs.1 _ (List.mem_map_of_mem _ hmem)

theorem queueOrdered_tail {e : Entry} {q : List Entry}
    (hord : QueueOrdered (e :: q)) : QueueOrdered q := by
  obtain ⟨hs, hb⟩ := hord
  rw [List.map_cons, List.sorted_cons] at hs
  exact ⟨hs.2, fun a ha b hb2 =>
    hb a (List.mem_cons_of_mem _ ha) b (List.mem_cons_of_mem _ hb2)⟩

theorem queueOrdered_step {pc : Path} {gc : Nat} {rest ch : List Entry}
    (hord : QueueOrdered ((pc, gc) :: rest))
    (hch : ∀ e ∈ ch, e.1.length = pc.length + 1) :
    QueueOrdered (rest ++ ch) := by
  obtain ⟨hsorted, hbound⟩ := hord
  have hs' := hsorted
  rw [List.map_cons, List.sorted_cons] at hs'
  have hhead : ∀ b ∈ rest.map (fun e => e.1.length), pc.length ≤ b := hs'.1
  have hble : ∀ f ∈ (pc, gc) :: rest, f.1.length ≤ pc.length + 1 :=
    fun f hf => hbound f hf (pc, gc) (List.mem_cons_self _ _)
  constructor
  · rw [List.map_append]
    refine List.pairwise_append.mpr ⟨hs'.2, ?_, ?_⟩
    · have hrep : ch.map (fun e => e.1.length) =
          List.replicate (ch.map (fun e => e.1.length)).length (pc.length + 1) := by
        apply List.eq_replicate_of_mem
        intro b hb
        obtain ⟨e, he, rfl⟩ := List.mem_map.mp hb
        exact hch e he
      rw [hrep]
      exact sorted_replicate _ _
    · intro x hx y hy
      obtain ⟨f, hf, rfl⟩ := List.mem_map.mp hx
      obtain ⟨e, he, rfl⟩ := List.mem_map.mp hy
      rw [hch e he]
      exact hble f (List.mem_cons_of_mem _ hf)
  · intro e he f hf
    rcases List.mem_append.mp he with h1 | h1 <;>
      rcases List.mem_append.mp hf with h2 | h2
    · exact hbound e (List.mem_cons_of_mem _ h1) f (List.mem_cons_of_mem _ h2)
    · have hle := hble e (List.mem_cons_of_mem _ h1)
      rw [hch f h2]
      omega
    · rw [hch e h1]
      have hge := hhead _ (List.mem_map_of_mem (fun e => e.1.length) h2)
      omega
    · rw [hch e h1, hch f h2]
      omega

theorem entrySound_children {g0 : Nat} {pc : Path} {gc v2 : Nat}
    (hsound : EntrySound g0 (pc, gc)) (hcont : outcome gc = Outcome.Continue) :
    ∀ e ∈ expandChildren gc pc v2, EntrySound g0 e := by
  intro e he
  obtain ⟨c, _, _, _, rfl⟩ := mem_expandChildren.mp he
  obtain ⟨hrep, hpre⟩ := hsound
  constructor
  · show replay g0 (c :: pc).reverse = explode gc c
    rw [List.reverse_cons, replay_append, hrep]
    rfl
  · intro k hk
    simp only [List.length_cons] at hk
    rw [List.reverse_cons]
    rcases Nat.lt_or_ge k pc.length with hlt | hge
    · rw [List.take_append_of_le_length (by simpa using Nat.le_of_lt hlt)]
      exact hpre k hlt
    · have hk' : k = pc.length := by omega
      subst hk'
      rw [show pc.length = pc.reverse.length by simp, List.take_left, hrep]
      exact ((outcome_continue_iff gc).mp hcont).2

theorem loop_replay_sound (g0 : Nat) : ∀ (n v : Nat) (q : List Entry) (p : Path),
    (∀ e ∈ q, EntrySound g0 e) → bfs_loop n v q = some (some p) →
    replay g0 p.reverse = winning_grid ∧
      ∀ k, k < p.length → replay g0 (p.reverse.take k) ≠ winning_grid := by
  intro n
  induction n with
  | zero =>
    intro v q p hq h
    exact absurd h (by simp [bfs_loop])
  | succ n IH =>
    intro v q p hq h
    cases q with
    | nil => simp [bfs_loop] at h
    | cons head rest =>
      obtain ⟨pc, gc⟩ := head
      cases houtcome : outcome gc with
      | Won =>
        simp only [bfs_loop, houtcome] at h
        split_ifs at h with hp
        · exact IH _ _ _ (fun e he => hq e (List.mem_cons_of_mem _ he)) h
        · simp only [Option.some.injEq] at h
          subst h
          obtain ⟨hrep, hpre⟩ := hq (pc, gc) (List.mem_cons_self _ _)
          rw [(outcome_won_iff gc).mp houtcome] at hrep
          exact ⟨hrep, hpre⟩
      | Lost =>
        simp only [bfs_loop, houtcome] at h
        exact IH _ _ _ (fun e he => hq e (List.mem_cons_of_mem _ he)) h
      | Continue =>
        simp only [bfs_loop, houtcome] at h
        refine IH _ _ _ ?_ h
        intro e he
        rcases List.mem_append.mp he with h1 | h1
        · exact hq e (List.mem_cons_of_mem _ h1)
        · exact entrySound_children (hq (pc, gc) (List.mem_cons_self _ _))
            houtcome e h1

theorem loop_min_master (g0 : Nat) (ms0 : List Int) (d : Nat)
    (hms0w : replay g0 ms0 = winning_grid) (hms0l : ms0.length = d)
    (hdmin : ∀ ms : List Int, replay g0 ms = winning_grid → d ≤ ms.length) :
    ∀ (n v : Nat) (q : List Entry) (p : Path),
      (∀ e ∈ q, EntrySound g0 e) → QueueOrdered q →
      WinWitness g0 d ms0 v q →
      bfs_loop n v q = some (some p) → p.length ≤ d := by
  intro n
  induction n with
  | zero =>
    intro v q p _ _ _ h
    exact absurd h (by simp [bfs_loop])
  | succ n IH =>
    intro v q p hq hord hwit h
    cases q with
    | nil => simp [bfs_loop] at h
    | cons head rest =>
      obtain ⟨pc, gc⟩ := head
      obtain ⟨i, hid, pw, hw_mem, hw_len, hw_unvis⟩ := hwit
      have hpc_le : pc.length ≤ i :=
        Nat.le_trans (queueOrdered_head_le hord _ hw_mem) hw_len
      have hrep_pc : replay g0 pc.reverse = gc :=
        (hq (pc, gc) (List.mem_cons_self _ _)).1
      have hno_hit : ∀ j, i < j → j ≤ d → gc ≠ replay g0 (ms0.take j) := by
        intro j hj1 hj2 hcontra
        have hwin : replay g0 (pc.reverse ++ ms0.drop j) = winning_grid := by
          rw [replay_append, hrep_pc, hcontra, ← replay_append,
            List.take_append_drop, hms0w]
        have hlen := hdmin _ hwin
        rw [List.length_append, List.length_reverse, List.length_drop, hms0l] at hlen
        omega
      cases houtcome : outcome gc with
      | Won =>
        simp only [bfs_loop, houtcome] at h
        split_ifs at h with hp
        · -- the winning head carries the empty (NULL) path: the loop goes
          -- on, but then the initial grid itself is the winning grid, so
          -- every sound entry of the remaining queue has no winning
          -- prefix — in particular no later return can be non-empty
          have hg0 : g0 = winning_grid := by
            rw [hp] at hrep_pc
            simp only [List.reverse_nil] at hrep_pc
            rw [(outcome_won_iff gc).mp houtcome] at hrep_pc
            exact hrep_pc
          have hrs := loop_replay_sound g0 n (v ||| 1 <<< gc) rest p
            (fun e he => hq e (List.mem_cons_of_mem _ he)) h
          by_contra hlen
          have hpos : 0 < p.length := by omega
          have hne := hrs.2 0 hpos
          rw [List.take_zero] at hne
          exact hne hg0
        · simp only [Option.some.injEq] at h
          subst h
          omega
      | Lost =>
        simp only [bfs_loop, houtcome] at h
        have hglost : gc = empty_grid := (outcome_lost_iff gc).mp houtcome
        have hw_mem' : (pw, replay g0 (ms0.take i)) ∈ rest := by
          rcases List.mem_cons.mp hw_mem with heq | hmem
          · exfalso
            have h2 : replay g0 (ms0.take i) = gc := congrArg Prod.snd heq
            have hzero : replay g0 ms0 = 0 := by
              rw [← List.take_append_drop i ms0, replay_append, h2, hglost]
              exact replay_zero _
            rw [hms0w] at hzero
            exact absurd hzero (by decide)
          · exact hmem
        refine IH _ _ _ (fun e he => hq e (List.mem_cons_of_mem _ he))
          (queueOrdered_tail hord) ⟨i, hid, pw, hw_mem', hw_len, ?_⟩ h
        intro j hj1 hj2
        have h1 := hw_unvis j hj1 hj2
        have h2 := hno_hit j hj1 hj2
        simp [Nat.testBit_or, h1, Nat.one_shiftLeft, Nat.testBit_two_pow, h2]
      | Continue =>
        simp only [bfs_loop, houtcome] at h
        have hchlen : ∀ e ∈ expandChildren gc pc (v ||| 1 <<< gc),
            e.1.length = pc.length + 1 := expandChildren_length
        have hsound' : ∀ e ∈ rest ++ expandChildren gc pc (v ||| 1 <<< gc),
            EntrySound g0 e := by
          intro e he
          rcases List.mem_append.mp he with h1 | h1
          · exact hq e (List.mem_cons_of_mem _ h1)
          · exact entrySound_children (hq (pc, gc) (List.mem_cons_self _ _))
              houtcome e h1
        have hord' : QueueOrdered (rest ++ expandChildren gc pc (v ||| 1 <<< gc)) :=
          queueOrdered_step hord hchlen
        rcases List.mem_cons.mp hw_mem with heq | hw_mem'
        · -- the witness entry is the popped head
          have hpw : pw = pc := congrArg Prod.fst heq
          have hgc_eq : replay g0 (ms0.take i) = gc := congrArg Prod.snd heq
          have hinotd : i ≠ d := by
            intro hii
            subst hii
            have : ms0.take i = ms0 := by
              rw [← hms0l]
              exact List.take_length ms0
            rw [this, hms0w] at hgc_eq
            exact ((outcome_continue_iff gc).mp houtcome).2 hgc_eq.symm
          have hi_lt : i < d := Nat.lt_of_le_of_ne hid hinotd
          have hi_len : i < ms0.length := by omega
          have htake : ms0.take (i + 1) = ms0.take i ++ [ms0.get ⟨i, hi_len⟩] := by
            have hcat := List.take_concat_get ms0 i hi_len
            rw [List.concat_eq_append] at hcat
            exact hcat.symm
          have hreplay_succ : replay g0 (ms0.take (i + 1)) =
              explode gc (ms0.get ⟨i, hi_len⟩) := by
            rw [htake, replay_append, hgc_eq]
            rfl
          have hshort : replay g0 (ms0.take (i + 1)) ≠ gc := by
            intro hstall
            have hwin : replay g0 (ms0.take i ++ ms0.drop (i + 1)) = winning_grid := by
              calc replay g0 (ms0.take i ++ ms0.drop (i + 1))
                  = replay gc (ms0.drop (i + 1)) := by rw [replay_append, hgc_eq]
                _ = replay (replay g0 (ms0.take (i + 1))) (ms0.drop (i + 1)) := by
                    rw [hstall]
                _ = replay g0 (ms0.take (i + 1) ++ ms0.drop (i + 1)) :=
                    (replay_append _ _ _).symm
                _ = winning_grid := by rw [List.take_append_drop, hms0w]
            have hlen := hdmin _ hwin
            rw [List.length_append, List.length_take, List.length_drop, hms0l] at hlen
            omega
          have hstar : is_star gc (ms0.get ⟨i, hi_len⟩) = true := by
            by_contra hns
            have hns' : is_star gc (ms0.get ⟨i, hi_len⟩) = false := by
              simpa using hns
            exact hshort (by rw [hreplay_succ, explode_not_star _ _ hns'])
          have hunvis1 : v.testBit (replay g0 (ms0.take (i + 1))) = false :=
            hw_unvis (i + 1) (by omega) (by omega)
          have hne_gc : gc ≠ replay g0 (ms0.take (i + 1)) := fun hcontra =>
            hshort hcontra.symm
          have hunvis2 : (v ||| 1 <<< gc).testBit
              (explode gc (ms0.get ⟨i, hi_len⟩)) = false := by
            rw [← hreplay_succ]
            simp [Nat.testBit_or, hunvis1, Nat.one_shiftLeft,
              Nat.testBit_two_pow, hne_gc]
          have hc_mem : ms0.get ⟨i, hi_len⟩ ∈ moves :=
            (mem_moves_iff _).mpr (is_star_range _ _ hstar)
          have hchild : (ms0.get ⟨i, hi_len⟩ :: pc,
              explode gc (ms0.get ⟨i, hi_len⟩)) ∈
              expandChildren gc pc (v ||| 1 <<< gc) :=
            mem_expandChildren.mpr ⟨_, hc_mem, hstar, hunvis2, rfl⟩
          refine IH _ _ _ hsound' hord'
            ⟨i + 1, by omega, ms0.get ⟨i, hi_len⟩ :: pc, ?_, ?_, ?_⟩ h
          · rw [← hreplay_succ] at hchild
            exact List.mem_append_right _ hchild
          · simp only [List.length_cons]
            omega
          · intro j hj1 hj2
            have h1 := hw_unvis j (by omega) hj2
            have h2 := hno_hit j (by omega) hj2
            simp [Nat.testBit_or, h1, Nat.one_shiftLeft, Nat.testBit_two_pow, h2]
        · refine IH _ _ _ hsound' hord'
            ⟨i, hid, pw, List.mem_append_left _ hw_mem', hw_len, ?_⟩ h
          intro j hj1 hj2
          have h1 := hw_unvis j hj1 hj2
          have h2 := hno_hit j hj1 hj2
          simp [Nat.testBit_or, h1, Nat.one_shiftLeft, Nat.testBit_two_pow, h2]

/-- Claim C1: whenever the solver returns a path, replaying its move
sequence (oldest move first) from the initial grid by successive
`explode` calls reaches exactly the winning grid, no replay state before
the final move is the winning grid, and the path is a shortest winning
move sequence: no move list whatsoever that replays to the winning grid
is shorter. -/
theorem c1_solver_path_shortest_win : ∀ g0 : Nat, g0 < 512 →
    ∀ p : Path, shortest_winning_path g0 = some p →
    replay g0 (to_sequence p) = winning_grid ∧
    (∀ k, k < (to_sequence p).length →
      replay g0 ((to_sequence p).take k) ≠ winning_grid) ∧
    ∀ ms : List Int, replay g0 ms = winning_grid →
      (to_sequence p).length ≤ ms.length := by
  intro g0 hg p hp
  obtain ⟨n, hn⟩ := loop_of_swp g0 hg p hp
  have hsound_init : ∀ e ∈ [(([] : Path), g0)], EntrySound g0 e := by
    intro e he
    rw [List.mem_singleton] at he
    subst he
    exact ⟨rfl, fun k hk => absurd hk (by simp)⟩
  have hrep := loop_replay_sound g0 n 0 _ p hsound_init hn
  refine ⟨hrep.1, fun k hk => hrep.2 k (by simpa [to_sequence] using hk), ?_⟩
  intro ms hms
  classical
  have hex : ∃ nlen : Nat, ∃ ws : List Int,
      ws.length = nlen ∧ replay g0 ws = winning_grid := ⟨ms.length, ms, rfl, hms⟩
  obtain ⟨ms0, hms0l, hms0w⟩ := Nat.find_spec hex
  have hdmin : ∀ ws : List Int, replay g0 ws = winning_grid →
      Nat.find hex ≤ ws.length := by
    intro ws hws
    by_contra hlt
    exact Nat.find_min hex (by omega) ⟨ws, rfl, hws⟩
  have hord_init : QueueOrdered [(([] : Path), g0)] := by
    constructor
    · simp
    · intro e he f hf
      rw [List.mem_singleton] at he hf
      subst he
      subst hf
      omega
  have hwit_init : WinWitness g0 (Nat.find hex) ms0 0 [(([] : Path), g0)] := by
    refine ⟨0, Nat.zero_le _, [], ?_, Nat.le_refl _, ?_⟩
    · simp [replay_nil]
    · intro j _ _
      simp [Nat.zero_testBit]
  have hple := loop_min_master g0 ms0 (Nat.find hex) hms0w hms0l hdmin
    n 0 _ p hsound_init hord_init hwit_init hn
  have hd_le : Nat.find hex ≤ ms.length := hdmin ms hms
  simp only [to_sequence, List.length_reverse]
  omega

/-- Witness for claim C1 at initial grid 341 (stars in cells 1, 3, 5, 7
and 9): the solver returns the one-move path `[5]`, whose replay is the
winning grid, and no shorter move list wins. -/
theorem c1_witness :
    replay 341 (to_sequence [5]) = winning_grid ∧
    (∀ k, k < (to_sequence ([5] : Path)).length →
      replay 341 ((to_sequence ([5] : Path)).take k) ≠ winning_grid) ∧
    ∀ ms : List Int, replay 341 ms = winning_grid →
      (to_sequence ([5] : Path)).length ≤ ms.length :=
  c1_solver_path_shortest_win 341 (by norm_num) [5]
    (swp_eq_of_loop 341 (by norm_num) 5 (some [5]) (by decide))

/-- Claim C10: `explode` is idempotent per cell — a second explosion of
the same cell is a no-op, because the toggle mask of a cell contains the
cell itself, so after a real explosion the cell is a hole. -/
theorem c10_explode_idempotent : ∀ (g : Nat) (c : Int),
    explode (explode g c) c = explode g c := by
  intro g c
  cases hs : is_star g c
  · rw [explode_not_star g c hs, explode_not_star g c hs]
  · exact explode_not_star _ _ (is_star_explode_self g c hs)

namespace PathRc

theorem mem_updateMem (h : Heap) (a : Nat) (nd : Option PathNode) (b : Nat) :
    (updateMem h a nd).mem b = if b = a then nd else h.mem b := rfl

theorem next_updateMem (h : Heap) (a : Nat) (nd : Option PathNode) :
    (updateMem h a nd).next = h.next := rfl

theorem dropN_none_preserved : ∀ (fuel : Nat) (h : Heap) (r : Option Nat) (a : Nat),
    h.mem a = none → (dropN fuel h r).mem a = none := by
  intro fuel
  induction fuel with
  | zero =>
    intro h r a ha
    cases r <;> simpa [dropN] using ha
  | succ fuel IH =>
    intro h r a ha
    cases r with
    | none => simpa [dropN] using ha
    | some b =>
      simp only [dropN]
      cases hmb : h.mem b with
      | none => exact ha
      | some nb =>
        dsimp only
        split_ifs with hr
        · apply IH
          rw [mem_updateMem]
          split_ifs with hab
          · rfl
          · exact ha
        · rw [mem_updateMem]
          split_ifs with hab
          · rw [hab, hmb] at ha
            exact Option.noConfusion ha
          · exact ha

theorem chainDec_updateMem_none {h : Heap} (hc : ChainDec h) (a : Nat) :
    ChainDec (updateMem h a none) := by
  intro x nx hx y hy
  rw [mem_updateMem] at hx
  by_cases hxa : x = a
  · rw [if_pos hxa] at hx
    simp at hx
  · rw [if_neg hxa] at hx
    exact hc x nx hx y hy

theorem dropN_fuel_stable : ∀ (a : Nat) (h : Heap), ChainDec h →
    ∀ (f f' : Nat), a < f → a < f' → dropN f h (some a) = dropN f' h (some a) := by
  intro a
  induction a using Nat.strong_induction_on with
  | _ a IH =>
    intro h hc f f' hf hf'
    obtain ⟨f1, rfl⟩ : ∃ k, f = k + 1 := ⟨f - 1, by omega⟩
    obtain ⟨f2, rfl⟩ : ∃ k, f' = k + 1 := ⟨f' - 1, by omega⟩
    simp only [dropN]
    cases hm : h.mem a with
    | none => rfl
    | some nd =>
      dsimp only
      split_ifs with hr
      · cases hrest : nd.rest with
        | none => simp [dropN]
        | some b =>
          have hb : b < a := hc a nd hm b hrest
          exact IH b hb (updateMem h a none) (chainDec_updateMem_none hc a)
            f1 f2 (by omega) (by omega)
      · rfl

theorem drop_frees_iff (h : Heap) (a : Nat) (nd : PathNode) (hm : h.mem a = some nd) :
    ((drop_reference_to_path h (some a)).mem a = none ↔ nd.references = 1) := by
  unfold drop_reference_to_path
  simp only [dropN, hm]
  split_ifs with hr
  · constructor
    · intro _
      omega
    · intro _
      apply dropN_none_preserved
      rw [mem_updateMem]
      simp
  · rw [mem_updateMem]
    simp only [if_pos rfl]
    constructor
    · intro hh
      exact Option.noConfusion hh
    · intro hh
      exfalso
      omega

theorem drop_cascade_eq (h : Heap) (a : Nat) (nd : PathNode) (hc : ChainDec h)
    (hm : h.mem a = some nd) (h1 : nd.references = 1) :
    drop_reference_to_path h (some a) =
      drop_reference_to_path (updateMem h a none) nd.rest := by
  unfold drop_reference_to_path
  cases hrest : nd.rest with
  | none =>
    simp only [dropN, hm, hrest]
    rw [if_pos (by omega)]
  | some b =>
    have hb : b < a := hc a nd hm b hrest
    simp only [dropN, hm, hrest]
    rw [if_pos (by omega)]
    exact dropN_fuel_stable b (updateMem h a none) (chainDec_updateMem_none hc a)
      a (b + 1) hb (by omega)

theorem restOf_update_none (h : Heap) (a b : Nat) :
    restOf (updateMem h a none) b = if b = a then none else restOf h b := by
  unfold restOf
  rw [mem_updateMem]
  split_ifs <;> rfl

theorem restOf_update_node (h : Heap) (a : Nat) (nd2 : PathNode) (b : Nat) :
    restOf (updateMem h a (some nd2)) b = if b = a then nd2.rest else restOf h b := by
  unfold restOf
  rw [mem_updateMem]
  split_ifs <;> rfl

theorem inDeg_update_refs (h : Heap) (a : Nat) (nd nd2 : PathNode)
    (hm : h.mem a = some nd) (hrest : nd2.rest = nd.rest) (x : Nat) :
    inDeg (updateMem h a (some nd2)) x = inDeg h x := by
  unfold inDeg
  rw [next_updateMem]
  congr 1
  apply Finset.filter_congr
  intro b _
  rw [restOf_update_node]
  split_ifs with hba
  · subst hba
    unfold restOf
    rw [hm, hrest]
  · exact Iff.rfl

theorem filter_update_none (h : Heap) (a x : Nat) :
    (Finset.range h.next).filter
        (fun b => restOf (updateMem h a none) b = some x) =
      ((Finset.range h.next).filter (fun b => restOf h b = some x)).erase a := by
  ext b
  simp only [Finset.mem_filter, Finset.mem_erase, Finset.mem_range,
    restOf_update_none]
  constructor
  · rintro ⟨hb, hr⟩
    by_cases hba : b = a
    · rw [if_pos hba] at hr
      exact absurd hr (by simp)
    · rw [if_neg hba] at hr
      exact ⟨hba, hb, hr⟩
  · rintro ⟨hba, hb, hr⟩
    refine ⟨hb, ?_⟩
    rw [if_neg hba]
    exact hr

theorem inDeg_update_none_of_rest_ne (h : Heap) (a x : Nat)
    (hne : restOf h a ≠ some x) :
    inDeg (updateMem h a none) x = inDeg h x := by
  unfold inDeg
  rw [next_updateMem, filter_update_none, Finset.erase_eq_of_not_mem]
  intro hmem
  exact hne (Finset.mem_filter.mp hmem).2

theorem inDeg_update_none_of_rest_eq (h : Heap) (a x : Nat) (ha : a < h.next)
    (heq : restOf h a = some x) :
    inDeg (updateMem h a none) x + 1 = inDeg h x := by
  unfold inDeg
  rw [next_updateMem, filter_update_none]
  have hmem : a ∈ (Finset.range h.next).filter (fun b => restOf h b = some x) := by
    simp [Finset.mem_filter, Finset.mem_range, ha, heq]
  have hpos : 0 < ((Finset.range h.next).filter
      (fun b => restOf h b = some x)).card := Finset.card_pos.mpr ⟨a, hmem⟩
  rw [Finset.card_erase_of_mem hmem]
  omega

theorem inDeg_eq_zero_of_dead (h : Heap) (x : Nat) (hdead : h.mem x = none)
    (hch : ∀ a nd, h.mem a = some nd → ∀ b, nd.rest = some b →
      b < a ∧ h.mem b ≠ none) :
    inDeg h x = 0 := by
  unfold inDeg
  rw [Finset.card_eq_zero, Finset.filter_eq_empty_iff]
  intro b _ hr
  unfold restOf at hr
  cases hmb : h.mem b with
  | none => rw [hmb] at hr; exact Option.noConfusion hr
  | some nb =>
    rw [hmb] at hr
    exact (hch b nb hmb x hr).2 hdead

set_option maxHeartbeats 1600000 in
/-- Cascade preservation: dropping a pending reference to node `a` (with
enough fuel for the chain below it) restores the plain heap invariant. -/
theorem dropN_inv : ∀ (a fuel : Nat), a < fuel → ∀ (h : Heap) (hs : Multiset Nat),
    DropInv ⟨h, hs⟩ (some a) → HeapInv ⟨dropN fuel h (some a), hs⟩ := by
  intro a
  induction a using Nat.strong_induction_on with
  | _ a IH =>
    intro fuel hfuel h hs hinv
    obtain ⟨f1, rfl⟩ : ∃ k, fuel = k + 1 := ⟨fuel - 1, by omega⟩
    obtain ⟨nd, hm⟩ : ∃ nd, h.mem a = some nd := by
      cases hma : h.mem a with
      | none => exact absurd hma (hinv.pendingLive a rfl)
      | some nd => exact ⟨nd, rfl⟩
    have hcnt : nd.references = (hs.count a : Int) + (inDeg h a : Int) + 1 := by
      have hh := hinv.counts a nd hm
      rw [if_pos rfl] at hh
      exact hh
    have halive : a < h.next := hinv.bounded a (by simp [hm])
    simp only [dropN, hm]
    split_ifs with hr
    · -- the count reaches zero: free the node, cascade into the rest
      have hcn0 : hs.count a = 0 ∧ inDeg h a = 0 := by
        constructor <;> omega
      have hanotin : a ∉ hs := by
        intro hmem
        have := Multiset.count_pos.mpr hmem
        omega
      have hbound2 : ∀ b, (updateMem h a none).mem b ≠ none → b < h.next := by
        intro b hb
        rw [mem_updateMem] at hb
        by_cases hba : b = a
        · rw [if_pos hba] at hb
          exact absurd rfl hb
        · rw [if_neg hba] at hb
          exact hinv.bounded b hb
      have hnopoint : ∀ b nb, h.mem b = some nb → nb.rest ≠ some a := by
        intro b nb hmb hrb
        have hblt : b < h.next := hinv.bounded b (by simp [hmb])
        have hmem2 : b ∈ (Finset.range h.next).filter
            (fun c => restOf h c = some a) := by
          simp [Finset.mem_filter, Finset.mem_range, hblt, restOf, hmb, hrb]
        have := Finset.card_pos.mpr ⟨b, hmem2⟩
        have h0 := hcn0.2
        unfold inDeg at h0
        omega
      have hchain2 : ∀ x nx, (updateMem h a none).mem x = some nx →
          ∀ y, nx.rest = some y → y < x ∧ (updateMem h a none).mem y ≠ none := by
        intro x nx hx y hy
        rw [mem_updateMem] at hx
        by_cases hxa : x = a
        · rw [if_pos hxa] at hx
          exact Option.noConfusion hx
        · rw [if_neg hxa] at hx
          obtain ⟨hlt, hlive⟩ := hinv.chain x nx hx y hy
          refine ⟨hlt, ?_⟩
          rw [mem_updateMem]
          by_cases hya : y = a
          · subst hya
            exact absurd hy (hnopoint x nx hx)
          · rw [if_neg hya]
            exact hlive
      have hhandles2 : ∀ q ∈ hs, (updateMem h a none).mem q ≠ none := by
        intro q hq
        rw [mem_updateMem]
        by_cases hqa : q = a
        · subst hqa
          exact absurd hq hanotin
        · rw [if_neg hqa]
          exact hinv.handlesLive q hq
      cases hrest : nd.rest with
      | none =>
        have hra : restOf h a = none := by simp [restOf, hm, hrest]
        have hred : dropN f1 (updateMem h a none) none = updateMem h a none := by
          simp [dropN]
        rw [hred]
        refine ⟨hbound2, hchain2, hhandles2, ?_, ?_⟩
        · intro x nx hx
          have hxa : x ≠ a := by
            intro hh
            subst hh
            rw [mem_updateMem, if_pos rfl] at hx
            exact Option.noConfusion hx
          rw [mem_updateMem, if_neg hxa] at hx
          have hold : nx.references = (hs.count x : Int) + (inDeg h x : Int) + 0 := by
            have hh := hinv.counts x nx hx
            rw [if_neg (fun hh2 => hxa (Option.some.inj hh2).symm)] at hh
            exact hh
          show nx.references = (hs.count x : Int) + (inDeg (updateMem h a none) x : Int)
          rw [inDeg_update_none_of_rest_ne h a x (by rw [hra]; simp)]
          omega
        · intro x nx hx
          have hxa : x ≠ a := by
            intro hh
            subst hh
            rw [mem_updateMem, if_pos rfl] at hx
            exact Option.noConfusion hx
          rw [mem_updateMem, if_neg hxa] at hx
          exact hinv.pos x nx hx
      | some b =>
        have hra : restOf h a = some b := by simp [restOf, hm, hrest]
        obtain ⟨hblt, hblive⟩ := hinv.chain a nd hm b hrest
        apply IH b hblt f1 (by omega)
        refine ⟨hbound2, hchain2, hhandles2, ?_, ?_, ?_⟩
        · intro x nx hx
          have hxa : x ≠ a := by
            intro hh
            subst hh
            rw [mem_updateMem, if_pos rfl] at hx
            exact Option.noConfusion hx
          rw [mem_updateMem, if_neg hxa] at hx
          have hold : nx.references = (hs.count x : Int) + (inDeg h x : Int) + 0 := by
            have hh := hinv.counts x nx hx
            rw [if_neg (fun hh2 => hxa (Option.some.inj hh2).symm)] at hh
            exact hh
          show nx.references = (hs.count x : Int) +
            (inDeg (updateMem h a none) x : Int) + (if some b = some x then 1 else 0)
          by_cases hxb : x = b
          · subst hxb
            rw [if_pos rfl]
            have hdec := inDeg_update_none_of_rest_eq h a x halive hra
            omega
          · rw [if_neg (fun hh => hxb (Option.some.inj hh).symm)]
            have hsame := inDeg_update_none_of_rest_ne h a x
              (by rw [hra]; intro hh; exact hxb (Option.some.inj hh).symm)
            omega
        · intro x nx hx
          have hxa : x ≠ a := by
            intro hh
            subst hh
            rw [mem_updateMem, if_pos rfl] at hx
            exact Option.noConfusion hx
          rw [mem_updateMem, if_neg hxa] at hx
          exact hinv.pos x nx hx
        · intro y hy
          obtain rfl := Option.some.inj hy
          rw [mem_updateMem, if_neg (by omega)]
          exact hblive
    · -- the count stays positive: only the decrement happens
      refine ⟨?_, ?_, ?_, ?_, ?_⟩
      · intro b hb
        rw [mem_updateMem] at hb
        by_cases hba : b = a
        · subst hba
          exact halive
        · rw [if_neg hba] at hb
          exact hinv.bounded b hb
      · intro x nx hx y hy
        rw [mem_updateMem] at hx
        by_cases hxa : x = a
        · subst hxa
          rw [if_pos rfl] at hx
          obtain rfl := Option.some.inj hx
          obtain ⟨hlt, hlive⟩ := hinv.chain x nd hm y hy
          refine ⟨hlt, ?_⟩
          rw [mem_updateMem]
          by_cases hya : y = x
          · rw [if_pos hya]
            simp
          · rw [if_neg hya]
            exact hlive
        · rw [if_neg hxa] at hx
          obtain ⟨hlt, hlive⟩ := hinv.chain x nx hx y hy
          refine ⟨hlt, ?_⟩
          rw [mem_updateMem]
          by_cases hya : y = a
          · rw [if_pos hya]
            simp
          · rw [if_neg hya]
            exact hlive
      · intro q hq
        rw [mem_updateMem]
        by_cases hqa : q = a
        · rw [if_pos hqa]
          simp
        · rw [if_neg hqa]
          exact hinv.handlesLive q hq
      · intro x nx hx
        rw [mem_updateMem] at hx
        have hsame := inDeg_update_refs h a nd
          ⟨nd.references - 1, nd.move, nd.rest⟩ hm rfl
        by_cases hxa : x = a
        · subst hxa
          rw [if_pos rfl] at hx
          obtain rfl := Option.some.inj hx
          show nd.references - 1 = (hs.count x : Int) +
            (inDeg (updateMem h x (some ⟨nd.references - 1, nd.move, nd.rest⟩)) x : Int)
          rw [hsame]
          omega
        · rw [if_neg hxa] at hx
          have hold : nx.references = (hs.count x : Int) + (inDeg h x : Int) + 0 := by
            have hh := hinv.counts x nx hx
            rw [if_neg (fun hh2 => hxa (Option.some.inj hh2).symm)] at hh
            exact hh
          show nx.references = (hs.count x : Int) +
            (inDeg (updateMem h a (some ⟨nd.references - 1, nd.move, nd.rest⟩)) x : Int)
          rw [hsame]
          omega
      · intro x nx hx
        rw [mem_updateMem] at hx
        by_cases hxa : x = a
        · subst hxa
          rw [if_pos rfl] at hx
          obtain rfl := Option.some.inj hx
          show (1 : Int) ≤ nd.references - 1
          omega
        · rw [if_neg hxa] at hx
          exact hinv.pos x nx hx

theorem mem_allocNode (h : Heap) (p : Option Nat) (mv : Int) (b : Nat) :
    (allocNode h p mv).mem b = if b = h.next then some ⟨1, mv, p⟩ else h.mem b := rfl

theorem next_allocNode (h : Heap) (p : Option Nat) (mv : Int) :
    (allocNode h p mv).next = h.next + 1 := rfl

theorem restOf_allocNode_self (h : Heap) (p : Option Nat) (mv : Int) :
    restOf (allocNode h p mv) h.next = p := by
  unfold restOf
  rw [mem_allocNode, if_pos rfl]

theorem restOf_allocNode_other (h : Heap) (p : Option Nat) (mv : Int) (b : Nat)
    (hb : b ≠ h.next) : restOf (allocNode h p mv) b = restOf h b := by
  unfold restOf
  rw [mem_allocNode, if_neg hb]

theorem inDeg_allocNode (h : Heap) (p : Option Nat) (mv : Int) (x : Nat) :
    inDeg (allocNode h p mv) x = inDeg h x + (if p = some x then 1 else 0) := by
  unfold inDeg
  have hfeq : (Finset.range h.next).filter
        (fun b => restOf (allocNode h p mv) b = some x) =
      (Finset.range h.next).filter (fun b => restOf h b = some x) := by
    apply Finset.filter_congr
    intro b hb
    rw [Finset.mem_range] at hb
    rw [restOf_allocNode_other h p mv b (by omega)]
  rw [next_allocNode, Finset.range_succ, Finset.filter_insert,
    restOf_allocNode_self, hfeq]
  split_ifs with hp
  · rw [Finset.card_insert_of_not_mem (by simp [Finset.mem_filter])]
  · rfl

theorem release_inv (h : Heap) (hs : Multiset Nat) (a : Nat)
    (hinv : HeapInv ⟨h, hs⟩) (ha : a ∈ hs) :
    HeapInv ⟨drop_reference_to_path h (some a), hs.erase a⟩ := by
  have hlive : h.mem a ≠ none := hinv.handlesLive a ha
  show HeapInv ⟨dropN (a + 1) h (some a), hs.erase a⟩
  apply dropN_inv a (a + 1) (by omega) h (hs.erase a)
  refine ⟨hinv.bounded, hinv.chain, ?_, ?_, hinv.pos, ?_⟩
  · intro p hp
    exact hinv.handlesLive p (Multiset.mem_of_mem_erase hp)
  · intro x nx hx
    have hold : nx.references = (hs.count x : Int) + (inDeg h x : Int) :=
      hinv.counts x nx hx
    show nx.references = ((hs.erase a).count x : Int) + (inDeg h x : Int) +
      (if some a = some x then 1 else 0)
    by_cases hxa : x = a
    · rw [hxa, if_pos rfl, Multiset.count_erase_self]
      rw [hxa] at hold
      have h1 : 0 < hs.count a := Multiset.count_pos.mpr ha
      omega
    · rw [if_neg (fun hh => hxa (Option.some.inj hh).symm),
        Multiset.count_erase_of_ne hxa]
      omega
  · intro y hy
    have hya : a = y := Option.some.inj hy
    rw [← hya]
    exact hlive

theorem retain_inv (h : Heap) (hs : Multiset Nat) (a : Nat)
    (hinv : HeapInv ⟨h, hs⟩) (ha : a ∈ hs) :
    HeapInv ⟨inc_reference_to_path h (some a), a ::ₘ hs⟩ := by
  obtain ⟨nd, hm⟩ : ∃ nd, h.mem a = some nd := by
    cases hma : h.mem a with
    | none => exact absurd hma (hinv.handlesLive a ha)
    | some nd => exact ⟨nd, rfl⟩
  have halive : a < h.next := hinv.bounded a (by simp [hm])
  have hred : inc_reference_to_path h (some a) =
      updateMem h a (some ⟨nd.references + 1, nd.move, nd.rest⟩) := by
    simp only [inc_reference_to_path, hm]
  rw [hred]
  refine ⟨?_, ?_, ?_, ?_, ?_⟩
  · intro b hb
    rw [mem_updateMem] at hb
    show b < h.next
    by_cases hba : b = a
    · omega
    · rw [if_neg hba] at hb
      exact hinv.bounded b hb
  · intro x nx hx y hy
    rw [mem_updateMem] at hx
    by_cases hxa : x = a
    · rw [if_pos hxa] at hx
      obtain rfl := Option.some.inj hx
      have hy2 : nd.rest = some y := hy
      obtain ⟨hlt, hliveb⟩ := hinv.chain a nd hm y hy2
      refine ⟨by omega, ?_⟩
      rw [mem_updateMem]
      by_cases hya : y = a
      · rw [if_pos hya]
        simp
      · rw [if_neg hya]
        exact hliveb
    · rw [if_neg hxa] at hx
      obtain ⟨hlt, hliveb⟩ := hinv.chain x nx hx y hy
      refine ⟨hlt, ?_⟩
      rw [mem_updateMem]
      by_cases hya : y = a
      · rw [if_pos hya]
        simp
      · rw [if_neg hya]
        exact hliveb
  · intro p hp
    rw [Multiset.mem_cons] at hp
    rw [mem_updateMem]
    by_cases hpa : p = a
    · rw [if_pos hpa]
      simp
    · rw [if_neg hpa]
      cases hp with
      | inl hh => exact absurd hh hpa
      | inr hh => exact hinv.handlesLive p hh
  · intro x nx hx
    rw [mem_updateMem] at hx
    have hsame := inDeg_update_refs h a nd ⟨nd.references + 1, nd.move, nd.rest⟩ hm rfl
    by_cases hxa : x = a
    · rw [if_pos hxa] at hx
      obtain rfl := Option.some.inj hx
      show nd.references + 1 = ((a ::ₘ hs).count x : Int) +
        (inDeg (updateMem h a (some ⟨nd.references + 1, nd.move, nd.rest⟩)) x : Int)
      rw [hxa, hsame a, Multiset.count_cons_self]
      have hold : nd.references = (hs.count a : Int) + (inDeg h a : Int) :=
        hinv.counts a nd hm
      omega
    · rw [if_neg hxa] at hx
      have hold : nx.references = (hs.count x : Int) + (inDeg h x : Int) :=
        hinv.counts x nx hx
      show nx.references = ((a ::ₘ hs).count x : Int) +
        (inDeg (updateMem h a (some ⟨nd.references + 1, nd.move, nd.rest⟩)) x : Int)
      rw [hsame x, Multiset.count_cons_of_ne hxa]
      exact hold
  · intro x nx hx
    rw [mem_updateMem] at hx
    by_cases hxa : x = a
    · rw [if_pos hxa] at hx
      obtain rfl := Option.some.inj hx
      show (1 : Int) ≤ nd.references + 1
      have := hinv.pos a nd hm
      omega
    · rw [if_neg hxa] at hx
      exact hinv.pos x nx hx

theorem extend_none_inv (h : Heap) (hs : Multiset Nat) (mv : Int)
    (hinv : HeapInv ⟨h, hs⟩) :
    HeapInv ⟨(add_move_to_path h none mv).1,
      (add_move_to_path h none mv).2 ::ₘ hs⟩ := by
  have hfresh : h.mem h.next = none := by
    cases hmn : h.mem h.next with
    | none => rfl
    | some nd =>
      have hlt : h.next < h.next := hinv.bounded h.next (by simp [hmn])
      omega
  have hnotin : h.next ∉ hs := fun hmem => hinv.handlesLive h.next hmem hfresh
  have hdeg0 : inDeg h h.next = 0 := inDeg_eq_zero_of_dead h h.next hfresh hinv.chain
  show HeapInv ⟨allocNode h none mv, h.next ::ₘ hs⟩
  refine ⟨?_, ?_, ?_, ?_, ?_⟩
  · intro b hb
    rw [mem_allocNode] at hb
    show b < h.next + 1
    by_cases hbn : b = h.next
    · omega
    · rw [if_neg hbn] at hb
      have hblt : b < h.next := hinv.bounded b hb
      omega
  · intro x nx hx y hy
    rw [mem_allocNode] at hx
    by_cases hxn : x = h.next
    · rw [if_pos hxn] at hx
      obtain rfl := Option.some.inj hx
      have hy2 : (none : Option Nat) = some y := hy
      exact Option.noConfusion hy2
    · rw [if_neg hxn] at hx
      obtain ⟨hlt, hliveb⟩ := hinv.chain x nx hx y hy
      refine ⟨hlt, ?_⟩
      rw [mem_allocNode]
      by_cases hyn : y = h.next
      · rw [if_pos hyn]
        simp
      · rw [if_neg hyn]
        exact hliveb
  · intro p hp
    rw [Multiset.mem_cons] at hp
    rw [mem_allocNode]
    by_cases hpn : p = h.next
    · rw [if_pos hpn]
      simp
    · rw [if_neg hpn]
      cases hp with
      | inl hh => exact absurd hh hpn
      | inr hh => exact hinv.handlesLive p hh
  · intro x nx hx
    rw [mem_allocNode] at hx
    by_cases hxn : x = h.next
    · rw [if_pos hxn] at hx
      obtain rfl := Option.some.inj hx
      show (1 : Int) = ((h.next ::ₘ hs).count x : Int) +
        (inDeg (allocNode h none mv) x : Int)
      rw [hxn, Multiset.count_cons_self, Multiset.count_eq_zero.mpr hnotin,
        inDeg_allocNode, hdeg0,
        if_neg (fun hh => Option.noConfusion (hh : (none : Option Nat) = some h.next))]
      simp
    · rw [if_neg hxn] at hx
      have hold : nx.references = (hs.count x : Int) + (inDeg h x : Int) :=
        hinv.counts x nx hx
      show nx.references = ((h.next ::ₘ hs).count x : Int) +
        (inDeg (allocNode h none mv) x : Int)
      rw [Multiset.count_cons_of_ne hxn, inDeg_allocNode,
        if_neg (fun hh => Option.noConfusion (hh : (none : Option Nat) = some x))]
      omega
  · intro x nx hx
    rw [mem_allocNode] at hx
    by_cases hxn : x = h.next
    · rw [if_pos hxn] at hx
      obtain rfl := Option.some.inj hx
      show (1 : Int) ≤ 1
      omega
    · rw [if_neg hxn] at hx
      exact hinv.pos x nx hx

theorem extend_some_inv (h : Heap) (hs : Multiset Nat) (a : Nat) (mv : Int)
    (hinv : HeapInv ⟨h, hs⟩) (ha : a ∈ hs) :
    HeapInv ⟨(add_move_to_path h (some a) mv).1,
      (add_move_to_path h (some a) mv).2 ::ₘ hs⟩ := by
  obtain ⟨nd, hm⟩ : ∃ nd, h.mem a = some nd := by
    cases hma : h.mem a with
    | none => exact absurd hma (hinv.handlesLive a ha)
    | some nd => exact ⟨nd, rfl⟩
  have halive : a < h.next := hinv.bounded a (by simp [hm])
  have hfresh : h.mem h.next = none := by
    cases hmn : h.mem h.next with
    | none => rfl
    | some nd2 =>
      have hlt : h.next < h.next := hinv.bounded h.next (by simp [hmn])
      omega
  have hnotin : h.next ∉ hs := fun hmem => hinv.handlesLive h.next hmem hfresh
  have hdeg0 : inDeg h h.next = 0 := inDeg_eq_zero_of_dead h h.next hfresh hinv.chain
  have hm2 : (allocNode h (some a) mv).mem a = some nd := by
    rw [mem_allocNode, if_neg (by omega)]
    exact hm
  have hred : (add_move_to_path h (some a) mv).1 =
      updateMem (allocNode h (some a) mv) a
        (some ⟨nd.references + 1, nd.move, nd.rest⟩) := by
    show inc_reference_to_path (allocNode h (some a) mv) (some a) = _
    simp only [inc_reference_to_path, hm2]
  have hred2 : (add_move_to_path h (some a) mv).2 = h.next := rfl
  rw [hred, hred2]
  have hsame := inDeg_update_refs (allocNode h (some a) mv) a nd
    ⟨nd.references + 1, nd.move, nd.rest⟩ hm2 rfl
  have halloc := inDeg_allocNode h (some a) mv
  refine ⟨?_, ?_, ?_, ?_, ?_⟩
  · intro b hb
    rw [mem_updateMem, mem_allocNode] at hb
    show b < h.next + 1
    by_cases hba : b = a
    · omega
    · rw [if_neg hba] at hb
      by_cases hbn : b = h.next
      · omega
      · rw [if_neg hbn] at hb
        have hblt : b < h.next := hinv.bounded b hb
        omega
  · intro x nx hx y hy
    rw [mem_updateMem, mem_allocNode] at hx
    by_cases hxa : x = a
    · rw [if_pos hxa] at hx
      obtain rfl := Option.some.inj hx
      have hy2 : nd.rest = some y := hy
      obtain ⟨hlt, hliveb⟩ := hinv.chain a nd hm y hy2
      refine ⟨by omega, ?_⟩
      rw [mem_updateMem, mem_allocNode]
      by_cases hya : y = a
      · rw [if_pos hya]
        simp
      · rw [if_neg hya]
        by_cases hyn : y = h.next
        · rw [if_pos hyn]
          simp
        · rw [if_neg hyn]
          exact hliveb
    · rw [if_neg hxa] at hx
      by_cases hxn : x = h.next
      · rw [if_pos hxn] at hx
        obtain rfl := Option.some.inj hx
        have hy2 : (some a : Option Nat) = some y := hy
        obtain rfl := Option.some.inj hy2
        refine ⟨by omega, ?_⟩
        rw [mem_updateMem, if_pos rfl]
        simp
      · rw [if_neg hxn] at hx
        obtain ⟨hlt, hliveb⟩ := hinv.chain x nx hx y hy
        refine ⟨hlt, ?_⟩
        rw [mem_updateMem, mem_allocNode]
        by_cases hya : y = a
        · rw [if_pos hya]
          simp
        · rw [if_neg hya]
          by_cases hyn : y = h.next
          · rw [if_pos hyn]
            simp
          · rw [if_neg hyn]
            exact hliveb
  · intro p hp
    rw [Multiset.mem_cons] at hp
    rw [mem_updateMem, mem_allocNode]
    by_cases hpa : p = a
    · rw [if_pos hpa]
      simp
    · rw [if_neg hpa]
      by_cases hpn : p = h.next
      · rw [if_pos hpn]
        simp
      · rw [if_neg hpn]
        cases hp with
        | inl hh => exact absurd hh hpn
        | inr hh => exact hinv.handlesLive p hh
  · intro x nx hx
    rw [mem_updateMem, mem_allocNode] at hx
    by_cases hxa : x = a
    · rw [if_pos hxa] at hx
      obtain rfl := Option.some.inj hx
      show nd.references + 1 = ((h.next ::ₘ hs).count x : Int) +
        (inDeg (updateMem (allocNode h (some a) mv) a
          (some ⟨nd.references + 1, nd.move, nd.rest⟩)) x : Int)
      rw [hxa, hsame a, halloc a, if_pos rfl,
        Multiset.count_cons_of_ne (by omega)]
      have hold : nd.references = (hs.count a : Int) + (inDeg h a : Int) :=
        hinv.counts a nd hm
      omega
    · rw [if_neg hxa] at hx
      by_cases hxn : x = h.next
      · rw [if_pos hxn] at hx
        obtain rfl := Option.some.inj hx
        show (1 : Int) = ((h.next ::ₘ hs).count x : Int) +
          (inDeg (updateMem (allocNode h (some a) mv) a
            (some ⟨nd.references + 1, nd.move, nd.rest⟩)) x : Int)
        rw [hxn, hsame h.next, halloc h.next,
          if_neg (fun hh => absurd (Option.some.inj hh) (by omega)),
          Multiset.count_cons_self, Multiset.count_eq_zero.mpr hnotin, hdeg0]
        simp
      · rw [if_neg hxn] at hx
        have hold : nx.references = (hs.count x : Int) + (inDeg h x : Int) :=
          hinv.counts x nx hx
        show nx.references = ((h.next ::ₘ hs).count x : Int) +
          (inDeg (updateMem (allocNode h (some a) mv) a
            (some ⟨nd.references + 1, nd.move, nd.rest⟩)) x : Int)
        rw [hsame x, halloc x, if_neg (fun hh => hxa (Option.some.inj hh).symm),
          Multiset.count_cons_of_ne hxn]
        omega
  · intro x nx hx
    rw [mem_updateMem, mem_allocNode] at hx
    by_cases hxa : x = a
    · rw [if_pos hxa] at hx
      obtain rfl := Option.some.inj hx
      show (1 : Int) ≤ nd.references + 1
      have := hinv.pos a nd hm
      omega
    · rw [if_neg hxa] at hx
      by_cases hxn : x = h.next
      · rw [if_pos hxn] at hx
        obtain rfl := Option.some.inj hx
        show (1 : Int) ≤ 1
        omega
      · rw [if_neg hxn] at hx
        exact hinv.pos x nx hx

theorem runOp_inv (s s2 : ClientState) (op : PathOp) (hinv : HeapInv s)
    (hrun : runOp s op = some s2) : HeapInv s2 := by
  obtain ⟨h, hs⟩ := s
  cases op with
  | extend p mv =>
    cases p with
    | none =>
      simp only [runOp] at hrun
      obtain rfl := Option.some.inj hrun
      exact extend_none_inv h hs mv hinv
    | some a =>
      simp only [runOp] at hrun
      split_ifs at hrun with ha
      obtain rfl := Option.some.inj hrun
      exact extend_some_inv h hs a mv hinv ha
  | retain a =>
    simp only [runOp] at hrun
    split_ifs at hrun with ha
    obtain rfl := Option.some.inj hrun
    exact retain_inv h hs a hinv ha
  | release a =>
    simp only [runOp] at hrun
    split_ifs at hrun with ha
    obtain rfl := Option.some.inj hrun
    exact release_inv h hs a hinv ha

theorem runOpsFrom_inv : ∀ (ops : List PathOp) (s s2 : ClientState),
    HeapInv s → runOpsFrom s ops = some s2 → HeapInv s2 := by
  intro ops
  induction ops with
  | nil =>
    intro s s2 hinv hrun
    simp only [runOpsFrom] at hrun
    obtain rfl := Option.some.inj hrun
    exact hinv
  | cons op ops IH =>
    intro s s2 hinv hrun
    simp only [runOpsFrom] at hrun
    cases hop : runOp s op with
    | none =>
      rw [hop] at hrun
      exact Option.noConfusion hrun
    | some s1 =>
      rw [hop] at hrun
      exact IH s1 s2 (runOp_inv s s1 op hinv hop) hrun

theorem initState_inv : HeapInv initState := by
  refine ⟨?_, ?_, ?_, ?_, ?_⟩
  · intro a ha
    exact absurd rfl ha
  · intro a nd hnd
    exact Option.noConfusion hnd
  · intro p hp
    exact absurd hp (Multiset.not_mem_zero p)
  · intro a nd hnd
    exact Option.noConfusion hnd
  · intro a nd hnd
    exact Option.noConfusion hnd

theorem empty_of_balanced (h : Heap)
    (hinv : HeapInv ⟨h, (0 : Multiset Nat)⟩) : ∀ a, h.mem a = none := by
  intro a
  by_contra hne
  classical
  set L := (Finset.range h.next).filter (fun b => h.mem b ≠ none) with hL
  have haL : a ∈ L := by
    rw [hL]
    simp only [Finset.mem_filter, Finset.mem_range]
    exact ⟨hinv.bounded a hne, hne⟩
  have hLne : L.Nonempty := ⟨a, haL⟩
  have hmL : L.max' hLne ∈ L := Finset.max'_mem L hLne
  have hmlive : h.mem (L.max' hLne) ≠ none := (Finset.mem_filter.mp hmL).2
  obtain ⟨nm, hnm⟩ : ∃ nm, h.mem (L.max' hLne) = some nm := by
    cases hmm : h.mem (L.max' hLne) with
    | none => exact absurd hmm hmlive
    | some nm => exact ⟨nm, rfl⟩
  have hcnt : nm.references = ((0 : Multiset Nat).count (L.max' hLne) : Int) +
      (inDeg h (L.max' hLne) : Int) := hinv.counts (L.max' hLne) nm hnm
  have hpos := hinv.pos (L.max' hLne) nm hnm
  have hc0 : (0 : Multiset Nat).count (L.max' hLne) = 0 := by simp
  have hdeg2 : 0 < ((Finset.range h.next).filter
      (fun b => restOf h b = some (L.max' hLne))).card := by
    have hdeg : 1 ≤ inDeg h (L.max' hLne) := by omega
    unfold inDeg at hdeg
    omega
  obtain ⟨b, hb⟩ := Finset.card_pos.mp hdeg2
  rw [Finset.mem_filter, Finset.mem_range] at hb
  obtain ⟨hblt, hbr⟩ := hb
  obtain ⟨nb, hnb⟩ : ∃ nb, h.mem b = some nb := by
    unfold restOf at hbr
    cases hmb : h.mem b with
    | none =>
      rw [hmb] at hbr
      exact Option.noConfusion hbr
    | some nb => exact ⟨nb, rfl⟩
  have hrest : nb.rest = some (L.max' hLne) := by
    unfold restOf at hbr
    rw [hnb] at hbr
    exact hbr
  have hmb : L.max' hLne < b := (hinv.chain b nb hnb (L.max' hLne) hrest).1
  have hbL : b ∈ L := by
    rw [hL]
    simp only [Finset.mem_filter, Finset.mem_range]
    exact ⟨hblt, by simp [hnb]⟩
  have hble : b ≤ L.max' hLne := Finset.le_max' L b hbL
  omega

/-- C7: reference-count correctness of the persistent path structure.
(i) `drop_reference_to_path` frees a node exactly when its reference count
reaches zero on decrement (count one before the drop), and never while the
count is still positive; (ii) freeing a node drops exactly one reference
from its `rest` node, cascading recursively along now-unreferenced nodes;
(iii) after any valid, balanced sequence of extend/retain/release client
operations (every acquisition matched by exactly one release, so no handles
remain), every allocated path node has been freed. -/
theorem c7_refcount_correct :
    (∀ (h : Heap) (a : Nat) (nd : PathNode), h.mem a = some nd →
      ((drop_reference_to_path h (some a)).mem a = none ↔ nd.references = 1)) ∧
    (∀ (h : Heap) (a : Nat) (nd : PathNode), ChainDec h → h.mem a = some nd →
      nd.references = 1 →
      drop_reference_to_path h (some a) =
        drop_reference_to_path (updateMem h a none) nd.rest) ∧
    (∀ (ops : List PathOp) (s : ClientState), runOps ops = some s →
      s.handles = 0 → ∀ (a : Nat), s.heap.mem a = none) := by
  refine ⟨fun h a nd hm => drop_frees_iff h a nd hm,
    fun h a nd hc hm h1 => drop_cascade_eq h a nd hc hm h1, ?_⟩
  intro ops s hrun hbal a
  obtain ⟨sh, shs⟩ := s
  have hbal2 : shs = 0 := hbal
  subst hbal2
  have hinv : HeapInv ⟨sh, (0 : Multiset Nat)⟩ :=
    runOpsFrom_inv ops initState ⟨sh, 0⟩ initState_inv hrun
  exact empty_of_balanced sh hinv a

/-- Witness for C7 on concrete data: the one-node example heap (count 1)
is freed by a single drop, its cascade equation holds, and the balanced
example run (one extend, one release) ends with an empty heap. -/
theorem c7_witness :
    ((drop_reference_to_path exampleHeap (some 0)).mem 0 = none) ∧
    (drop_reference_to_path exampleHeap (some 0) =
      drop_reference_to_path (updateMem exampleHeap 0 none) none) ∧
    (∀ a, (updateMem (allocNode emptyHeap none 7) 0 none).mem a = none) := by
  have hmem : exampleHeap.mem 0 = some ⟨1, 7, none⟩ := rfl
  have hchain : ChainDec exampleHeap := by
    intro x nx hx y hy
    by_cases hx0 : x = 0
    · have hnx : nx = ⟨1, 7, none⟩ := by
        rw [hx0] at hx
        rw [hmem] at hx
        exact (Option.some.inj hx).symm
      rw [hnx] at hy
      exact Option.noConfusion hy
    · have h0 : exampleHeap.mem x = none := by
        simp [exampleHeap, hx0]
      rw [h0] at hx
      exact Option.noConfusion hx
  refine ⟨?_, ?_, ?_⟩
  · exact (c7_refcount_correct.1 exampleHeap 0 ⟨1, 7, none⟩ hmem).mpr rfl
  · exact c7_refcount_correct.2.1 exampleHeap 0 ⟨1, 7, none⟩ hchain hmem rfl
  · exact fun a => c7_refcount_correct.2.2 exampleOps
      ⟨updateMem (allocNode emptyHeap none 7) 0 none, 0⟩ (by rfl) rfl a

end PathRc

end ShootingStar
